import Mathlib

/-!
Verification of the Lambda claim-extractor (`lambda_function.py`).

The embedding models Python values flowing through the handler as a JSON
value type.  Numbers are modelled as integers (the payloads the handler
manipulates are claim maps; floating point is outside the embedding).
Python dictionaries are modelled as association lists in insertion order,
`None` as `Json.null`, and fallible Python code (try/except) as functions
returning `Option` results, so that "never raises" is totality of the
model.
-/

set_option maxHeartbeats 1000000
set_option maxRecDepth 4000

/-- JSON values, the data manipulated by the Lambda.  Objects are
association lists in insertion order, as Python dicts preserve insertion
order.  Numbers are integers (see module docstring). -/
inductive Json where
  | null : Json
  | bool : Bool → Json
  | num : Int → Json
  | str : String → Json
  | arr : List Json → Json
  | obj : List (String × Json) → Json
deriving Repr

mutual

/-- Boolean equality on `Json`, mirroring Python `==` on the
corresponding values. -/
def Json.beq : Json → Json → Bool
  | .null, .null => true
  | .bool x, .bool y => x = y
  | .num x, .num y => x = y
  | .str x, .str y => x = y
  | .arr xs, .arr ys => Json.beqArr xs ys
  | .obj es, .obj fs => Json.beqObj es fs
  | _, _ => false
termination_by structural a => a

/-- Elementwise equality of JSON arrays. -/
def Json.beqArr : List Json → List Json → Bool
  | [], [] => true
  | x :: xs, y :: ys => Json.beq x y && Json.beqArr xs ys
  | _, _ => false
termination_by structural l => l

/-- Entrywise equality of JSON objects. -/
def Json.beqObj : List (String × Json) → List (String × Json) → Bool
  | [], [] => true
  | (k, v) :: es, (k2, v2) :: fs => k = k2 && Json.beq v v2 && Json.beqObj es fs
  | _, _ => false
termination_by structural l => l

end

mutual

theorem Json.beq_iff : ∀ (a b : Json), Json.beq a b = true ↔ a = b
  | .null, b => by cases b <;> simp [Json.beq]
  | .bool x, b => by cases b <;> simp [Json.beq]
  | .num x, b => by cases b <;> simp [Json.beq]
  | .str x, b => by cases b <;> simp [Json.beq]
  | .arr xs, b => by
      cases b with
      | arr ys => simp [Json.beq, Json.beqArr_iff xs ys]
      | _ => simp [Json.beq]
  | .obj es, b => by
      cases b with
      | obj fs => simp [Json.beq, Json.beqObj_iff es fs]
      | _ => simp [Json.beq]
termination_by structural a => a

theorem Json.beqArr_iff : ∀ (xs ys : List Json), Json.beqArr xs ys = true ↔ xs = ys
  | [], ys => by cases ys <;> simp [Json.beqArr]
  | x :: xs, ys => by
      cases ys with
      | nil => simp [Json.beqArr]
      | cons y ys => simp [Json.beqArr, Json.beq_iff x y, Json.beqArr_iff xs ys]
termination_by structural l => l

theorem Json.beqObj_iff :
    ∀ (es fs : List (String × Json)), Json.beqObj es fs = true ↔ es = fs
  | [], fs => by cases fs <;> simp [Json.beqObj]
  | (k, v) :: es, fs => by
      cases fs with
      | nil => simp [Json.beqObj]
      | cons kv2 fs =>
          obtain ⟨k2, v2⟩ := kv2
          simp [Json.beqObj, Bool.and_eq_true, decide_eq_true_eq,
            Json.beq_iff v v2, Json.beqObj_iff es fs, List.cons.injEq, Prod.mk.injEq]
termination_by structural l => l

end

instance : BEq Json := ⟨Json.beq⟩

instance : LawfulBEq Json where
  eq_of_beq h := (Json.beq_iff _ _).mp h
  rfl := (Json.beq_iff _ _).mpr rfl

instance : DecidableEq Json := fun a b =>
  decidable_of_iff (Json.beq a b = true) (Json.beq_iff a b)

/-- Python truthiness of a JSON value (`if not x` in the source): `None`,
`False`, `0`, `""`, `[]` and `{}` are falsy, everything else truthy. -/
def jsonFalsy : Json → Bool
  | .null => true
  | .bool b => !b
  | .num n => n = 0
  | .str s => s.isEmpty
  | .arr xs => xs.isEmpty
  | .obj es => es.isEmpty

/-- Whether a JSON value is an object (a Python `dict`). -/
def Json.isObj : Json → Bool
  | .obj _ => true
  | _ => false

/-- Python `d.get(k)` on a dict modelled as an association list: value of
the first entry with the given key, if any. -/
def dictGet (d : List (String × Json)) (k : String) : Option Json :=
  (d.find? (fun kv => kv.1 = k)).map (fun kv => kv.2)

/-- Python `d.get(k, default)`. -/
def dictGetD (d : List (String × Json)) (k : String) (dflt : Json) : Json :=
  (dictGet d k).getD dflt

/-- Python `d.get(k)` used where a missing key becomes `None` in the
produced record (`token_payload.get(...)` in the source). -/
def payloadGet (d : List (String × Json)) (k : String) : Json :=
  dictGetD d k Json.null

/-- Python `k in d` membership test on a dict. -/
def hasKey (d : List (String × Json)) (k : String) : Bool :=
  d.any (fun kv => kv.1 = k)

/-! ### Token splitting (`token.split(".")`) -/

/-- Python `token.split(".")` on the character list of the token: split at
every dot, keeping empty pieces, always returning at least one piece. -/
def splitOnDot : List Char → List (List Char)
  | [] => [[]]
  | c :: rest =>
    if c = '.' then [] :: splitOnDot rest
    else
      match splitOnDot rest with
      | [] => [[c]]
      | g :: gs => (c :: g) :: gs

/-- Python `value.split(",")`: split at every comma, keeping empty
pieces. -/
def splitOnComma : List Char → List (List Char)
  | [] => [[]]
  | c :: rest =>
    if c = ',' then [] :: splitOnComma rest
    else
      match splitOnComma rest with
      | [] => [[c]]
      | g :: gs => (c :: g) :: gs

/-- Python whitespace stripped by `str.strip()` (ASCII range). -/
def isPySpace (c : Char) : Bool :=
  c = ' ' || c = '\t' || c = '\n' || c = '\r' || c = Char.ofNat 11 || c = Char.ofNat 12

/-- Python `g.strip()`: drop leading and trailing whitespace. -/
def pyStrip (l : List Char) : List Char :=
  ((l.dropWhile isPySpace).reverse.dropWhile isPySpace).reverse

/-! ### Base64 decoding (`base64.urlsafe_b64decode`) -/

/-- The `-`/`_` to `+`/`/` translation done by `urlsafe_b64decode` before
standard decoding. -/
def urlsafeTr (c : Char) : Char :=
  if c = '-' then '+' else if c = '_' then '/' else c

/-- Value of a character in the standard base64 alphabet. -/
def b64Val (c : Char) : Option Nat :=
  if 'A' ≤ c ∧ c ≤ 'Z' then some (c.toNat - 65)
  else if 'a' ≤ c ∧ c ≤ 'z' then some (c.toNat - 71)
  else if '0' ≤ c ∧ c ≤ '9' then some (c.toNat + 4)
  else if c = '+' then some 62
  else if c = '/' then some 63
  else none

/-- Split trailing `=` padding off a base64 input: the body and the count
of trailing padding characters. -/
def stripPads (cs : List Char) : List Char × Nat :=
  let p := (cs.reverse.takeWhile (fun c => c = '=')).length
  (cs.take (cs.length - p), p)

/-- Reassemble bytes from 6-bit values, 4 sextets to 3 bytes, allowing a
final group of 2 or 3 sextets (1 or 2 bytes, surplus bits dropped); a
lone trailing sextet is an error. -/
def sextetsToBytes : List Nat → Option (List Nat)
  | [] => some []
  | [_] => none
  | [a, b] => some [a * 4 + b / 16]
  | [a, b, c] => some [a * 4 + b / 16, b % 16 * 16 + c / 4]
  | a :: b :: c :: d :: rest =>
    (sextetsToBytes rest).map
      (fun t => (a * 4 + b / 16) :: (b % 16 * 16 + c / 4) :: (c % 4 * 64 + d) :: t)

/-- Map every character to its base64 value, failing on the first
character outside the alphabet. -/
def b64Vals : List Char → Option (List Nat)
  | [] => some []
  | c :: cs => (b64Val c).bind fun v => (b64Vals cs).map fun vs => v :: vs

/-- Model of Python `base64.urlsafe_b64decode` on a text input: translate
the urlsafe alphabet, require a padded length that is a multiple of 4
with at most two trailing `=`, then decode the sextets.  Characters
outside the alphabet make the decode fail. -/
def urlsafe_b64decode (cs : List Char) : Option (List Nat) :=
  let tr := cs.map urlsafeTr
  let body := (stripPads tr).1
  let p := (stripPads tr).2
  if p ≤ 2 ∧ (body.length + p) % 4 = 0 then
    (b64Vals body).bind sextetsToBytes
  else none

/-! ### UTF-8 decoding (`bytes.decode("utf-8")`) -/

/-- Whether a byte is a UTF-8 continuation byte. -/
def isCont (b : Nat) : Bool := 0x80 ≤ b && b < 0xC0

/-- Decode one multi-byte UTF-8 sequence with lead byte `b`: the scalar
value and the remaining bytes.  Overlong forms, surrogates and
out-of-range sequences are rejected. -/
def utf8DecodeSeq (b : Nat) (rest : List Nat) : Option (Char × List Nat) :=
  if 0xC2 ≤ b ∧ b ≤ 0xDF then
    match rest with
    | c1 :: rest2 =>
      if isCont c1 then
        some (Char.ofNat ((b - 0xC0) * 64 + (c1 - 0x80)), rest2)
      else none
    | [] => none
  else if 0xE0 ≤ b ∧ b ≤ 0xEF then
    match rest with
    | c1 :: c2 :: rest3 =>
      if (if b = 0xE0 then 0xA0 ≤ c1 ∧ c1 < 0xC0
          else if b = 0xED then 0x80 ≤ c1 ∧ c1 < 0xA0
          else isCont c1 = true) ∧ isCont c2 = true then
        some (Char.ofNat ((b - 0xE0) * 4096 + (c1 - 0x80) * 64 + (c2 - 0x80)), rest3)
      else none
    | _ => none
  else if 0xF0 ≤ b ∧ b ≤ 0xF4 then
    match rest with
    | c1 :: c2 :: c3 :: rest4 =>
      if (if b = 0xF0 then 0x90 ≤ c1 ∧ c1 < 0xC0
          else if b = 0xF4 then 0x80 ≤ c1 ∧ c1 < 0x90
          else isCont c1 = true) ∧ isCont c2 = true ∧ isCont c3 = true then
        some (Char.ofNat ((b - 0xF0) * 0x40000 + (c1 - 0x80) * 4096 +
          (c2 - 0x80) * 64 + (c3 - 0x80)), rest4)
      else none
    | _ => none
  else none

/-- Fuel-indexed strict UTF-8 decoding loop; every step consumes at
least one byte, so any fuel beyond the byte count is enough. -/
def utf8DecodeF : Nat → List Nat → Option (List Char)
  | 0, _ => none
  | Nat.succ _, [] => some []
  | Nat.succ f, b :: rest =>
    if b < 0x80 then (utf8DecodeF f rest).map (fun s => Char.ofNat b :: s)
    else
      match utf8DecodeSeq b rest with
      | some cr => (utf8DecodeF f cr.2).map (fun s => cr.1 :: s)
      | none => none

/-- Strict UTF-8 decoding of a byte list to unicode scalar values, as
Python `bytes.decode("utf-8")` does (an error there raises, modelled as
`none`). -/
def utf8Decode (l : List Nat) : Option (List Char) := utf8DecodeF (l.length + 1) l

/-! ### JSON parsing (`json.loads`) -/

/-- Opening brace character (written via its code point). -/
def lbrace : Char := Char.ofNat 123

/-- Closing brace character (written via its code point). -/
def rbrace : Char := Char.ofNat 125

/-- JSON whitespace skipped by the Python scanner. -/
def isWsChar (c : Char) : Bool :=
  c = ' ' || c = '\t' || c = '\n' || c = '\r'

/-- Skip JSON whitespace. -/
def skipWs (cs : List Char) : List Char := cs.dropWhile isWsChar

/-- Decimal digit value of a character. -/
def digitVal (c : Char) : Option Nat :=
  if '0' ≤ c ∧ c ≤ '9' then some (c.toNat - 48) else none

/-- Greedily take decimal digits from the front. -/
def takeDigits : List Char → List Nat × List Char
  | [] => ([], [])
  | c :: rest =>
    match digitVal c with
    | some d =>
      let r := takeDigits rest
      (d :: r.1, r.2)
    | none => ([], c :: rest)

/-- Fold decimal digits onto an accumulator. -/
def digitsToNat (acc : Nat) : List Nat → Nat
  | [] => acc
  | d :: ds => digitsToNat (acc * 10 + d) ds

/-- Parse the digits of a JSON integer: `0` alone, or a nonzero leading
digit followed by any digits (the Python number regular expression
rejects redundant leading zeros). -/
def parseIntBody : List Char → Option (Nat × List Char)
  | [] => none
  | c :: rest =>
    if c = '0' then some (0, rest)
    else if '1' ≤ c ∧ c ≤ '9' then
      let r := takeDigits rest
      some (digitsToNat (c.toNat - 48) r.1, r.2)
    else none

/-- Reject a fraction or exponent continuation: Python would produce a
float there, which is outside this integer-valued embedding. -/
def checkNoFrac : List Char → Option (List Char)
  | [] => some []
  | c :: rest =>
    if c = '.' ∨ c = 'e' ∨ c = 'E' then none else some (c :: rest)

/-- Parse a JSON number (integers only, see `checkNoFrac`). -/
def parseNumberAt (cs : List Char) : Option (Json × List Char) :=
  match cs with
  | [] => none
  | c :: rest2 =>
    if c = '-' then
      (parseIntBody rest2).bind
        (fun nr => (checkNoFrac nr.2).map (fun r => (Json.num (-(nr.1 : Int)), r)))
    else
      (parseIntBody (c :: rest2)).bind
        (fun nr => (checkNoFrac nr.2).map (fun r => (Json.num (nr.1 : Int), r)))

/-- Hexadecimal digit value of a character. -/
def hexVal (c : Char) : Option Nat :=
  if '0' ≤ c ∧ c ≤ '9' then some (c.toNat - 48)
  else if 'a' ≤ c ∧ c ≤ 'f' then some (c.toNat - 87)
  else if 'A' ≤ c ∧ c ≤ 'F' then some (c.toNat - 55)
  else none

/-- Value of four hexadecimal digits. -/
def hex4 (a b c d : Char) : Option Nat :=
  (hexVal a).bind fun x =>
  (hexVal b).bind fun y =>
  (hexVal c).bind fun z =>
  (hexVal d).map fun w => x * 4096 + y * 256 + z * 16 + w

/-- Parse one string escape after the backslash, as the strict Python
scanner does: the short escapes, and `\uXXXX` with surrogate-pair
combination.  Unpaired surrogate escapes (which Python would keep as
non-scalar code units) are outside the embedding and map to `none`. -/
def parseEscape (cs : List Char) : Option (Char × List Char) :=
  match cs with
  | [] => none
  | e :: rest2 =>
    if e = '"' then some ('"', rest2)
    else if e = '\\' then some ('\\', rest2)
    else if e = '/' then some ('/', rest2)
    else if e = 'b' then some (Char.ofNat 8, rest2)
    else if e = 'f' then some (Char.ofNat 12, rest2)
    else if e = 'n' then some ('\n', rest2)
    else if e = 'r' then some ('\r', rest2)
    else if e = 't' then some ('\t', rest2)
    else if e = 'u' then
      match rest2 with
      | h1 :: h2 :: h3 :: h4 :: rest3 =>
        match hex4 h1 h2 h3 h4 with
        | none => none
        | some n =>
          if 0xD800 ≤ n ∧ n ≤ 0xDBFF then
            match rest3 with
            | e2 :: u2 :: g1 :: g2 :: g3 :: g4 :: rest4 =>
              if e2 = '\\' ∧ u2 = 'u' then
                match hex4 g1 g2 g3 g4 with
                | none => none
                | some m =>
                  if 0xDC00 ≤ m ∧ m ≤ 0xDFFF then
                    some (Char.ofNat (0x10000 + (n - 0xD800) * 0x400 + (m - 0xDC00)), rest4)
                  else none
              else none
            | _ => none
          else if 0xDC00 ≤ n ∧ n ≤ 0xDFFF then none
          else some (Char.ofNat n, rest3)
      | _ => none
    else none

/-- Fuel-indexed loop for the body of a JSON string after the opening
quote; every iteration consumes at least one character, so any fuel
beyond the input length is enough. -/
def parseStringBodyF : Nat → List Char → Option (List Char × List Char)
  | 0, _ => none
  | Nat.succ f, cs =>
    match cs with
    | [] => none
    | c :: rest =>
      if c = '"' then some ([], rest)
      else if c = '\\' then
        match parseEscape rest with
        | some cr => (parseStringBodyF f cr.2).map (fun sr => (cr.1 :: sr.1, sr.2))
        | none => none
      else if c.toNat < 0x20 then none
      else (parseStringBodyF f rest).map (fun sr => (c :: sr.1, sr.2))

/-- Parse the body of a JSON string after the opening quote, handling
the escapes accepted by the strict Python scanner; raw control
characters are rejected. -/
def parseStringBody (cs : List Char) : Option (List Char × List Char) :=
  parseStringBodyF (cs.length + 1) cs

/-- Python dict insertion `d[k] = v`: replace the value in place if the
key exists, else append (`json.loads` builds objects this way, so a
duplicated key keeps its first position with the last value). -/
def insertKey : List (String × Json) → String → Json → List (String × Json)
  | [], k, v => [(k, v)]
  | (k2, v2) :: es, k, v =>
    if k2 = k then (k2, v) :: es else (k2, v2) :: insertKey es k v

mutual

/-- Parse a JSON value at the head of the input (fuel-indexed; the fuel
only bounds nesting and is chosen large enough by `loads`).  Mirrors the
Python scanner dispatch: string, object, array, literals, then number. -/
def parseValue : Nat → List Char → Option (Json × List Char)
  | 0, _ => none
  | Nat.succ _, [] => none
  | Nat.succ f, c :: rest =>
    if c = '"' then
      (parseStringBody rest).map (fun sr => (Json.str (String.mk sr.1), sr.2))
    else if c = lbrace then
      match skipWs rest with
      | c2 :: rest2 =>
        if c2 = rbrace then some (Json.obj [], rest2)
        else parseMembers f (c2 :: rest2) []
      | [] => none
    else if c = '[' then
      match skipWs rest with
      | c2 :: rest2 =>
        if c2 = ']' then some (Json.arr [], rest2)
        else parseElems f (c2 :: rest2) []
      | [] => none
    else if c = 't' then
      match rest with
      | c1 :: c2 :: c3 :: r =>
        if c1 = 'r' ∧ c2 = 'u' ∧ c3 = 'e' then some (Json.bool true, r) else none
      | _ => none
    else if c = 'f' then
      match rest with
      | c1 :: c2 :: c3 :: c4 :: r =>
        if c1 = 'a' ∧ c2 = 'l' ∧ c3 = 's' ∧ c4 = 'e' then some (Json.bool false, r)
        else none
      | _ => none
    else if c = 'n' then
      match rest with
      | c1 :: c2 :: c3 :: r =>
        if c1 = 'u' ∧ c2 = 'l' ∧ c3 = 'l' then some (Json.null, r) else none
      | _ => none
    else parseNumberAt (c :: rest)
termination_by structural f _ => f

/-- Parse the elements of a nonempty JSON array, accumulating parsed
values; entered after `[` with at least one element present. -/
def parseElems : Nat → List Char → List Json → Option (Json × List Char)
  | 0, _, _ => none
  | Nat.succ f, cs, acc =>
    (parseValue f cs).bind fun vr =>
      match skipWs vr.2 with
      | c :: r3 =>
        if c = ',' then parseElems f (skipWs r3) (acc ++ [vr.1])
        else if c = ']' then some (Json.arr (acc ++ [vr.1]), r3)
        else none
      | [] => none
termination_by structural f _ _ => f

/-- Parse the members of a nonempty JSON object, accumulating entries via
`insertKey`; entered after the opening brace with at least one member
present. -/
def parseMembers : Nat → List Char → List (String × Json) → Option (Json × List Char)
  | 0, _, _ => none
  | Nat.succ f, cs, acc =>
    match cs with
    | c0 :: r =>
      if c0 = '"' then
        (parseStringBody r).bind fun kr =>
          match skipWs kr.2 with
          | c1 :: r3 =>
            if c1 = ':' then
              (parseValue f (skipWs r3)).bind fun vr =>
                match skipWs vr.2 with
                | c2 :: r6 =>
                  if c2 = ',' then
                    parseMembers f (skipWs r6) (insertKey acc (String.mk kr.1) vr.1)
                  else if c2 = rbrace then
                    some (Json.obj (insertKey acc (String.mk kr.1) vr.1), r6)
                  else none
                | [] => none
            else none
          | [] => none
      else none
    | [] => none
termination_by structural f _ _ => f

end

/-- Model of Python `json.loads`: skip leading whitespace, parse one
value, require only whitespace afterwards. -/
def loads (cs : List Char) : Option Json :=
  (parseValue (cs.length + 1) (skipWs cs)).bind fun vr =>
    if skipWs vr.2 = [] then some vr.1 else none

/-! ### `decode_jwt_payload` -/

/-- Padding step of `decode_jwt_payload` (lines 22-24 of the source):
compute `4 - len % 4` and append that many `=` unless it equals 4. -/
def pad_payload (p : List Char) : List Char :=
  let padding := 4 - p.length % 4
  if padding ≠ 4 then p ++ List.replicate padding '=' else p

/-- Base64-decode a padded payload segment, UTF-8-decode the bytes and
parse them as JSON; any failure (which raises inside the Python `try`)
is `none`. -/
def decodeSegment (cs : List Char) : Option Json :=
  match urlsafe_b64decode cs with
  | none => none
  | some bytes =>
    match utf8Decode bytes with
    | none => none
    | some chars => loads chars

/-- Model of `decode_jwt_payload`: split on dots, require exactly three
segments, pad and decode the second one; every failure path returns
`none` (the Python function catches all exceptions and returns `None`). -/
def decode_jwt_payload (token : String) : Option Json :=
  match splitOnDot token.data with
  | [_, p, _] => decodeSegment (pad_payload p)
  | _ => none

/-! ### Claim extraction and handler -/

/-- The fixed priority order of group claim names (lines 74-80). -/
def possible_group_claims : List String :=
  ["cognito:groups", "groups", "custom:groups", "memberOf", "roles"]

/-- Groups contributed by a matched claim value (lines 85-89): a list is
used verbatim, a string is split on commas with each piece stripped,
anything else contributes nothing. -/
def groupsOfValue : Json → List Json
  | .arr xs => xs
  | .str s => (splitOnComma s.data).map (fun g => Json.str (String.mk (pyStrip g)))
  | _ => []

/-- The group-claim scan (lines 82-90): find the first claim name present
in the payload, in priority order, and use its value; later names are
never consulted. -/
def extract_groups (entries : List (String × Json)) : List Json :=
  match possible_group_claims.find? (fun c => hasKey entries c) with
  | some c => groupsOfValue (payloadGet entries c)
  | none => []

/-- The user-info record built from a decoded token payload
(lines 62-70); missing claims become `None` (modelled `Json.null`). -/
def mkTokenUserInfo (entries : List (String × Json)) : List (String × Json) :=
  [("username", payloadGet entries "cognito:username"),
   ("email", payloadGet entries "email"),
   ("email_verified", payloadGet entries "email_verified"),
   ("sub", payloadGet entries "sub"),
   ("aud", payloadGet entries "aud"),
   ("iss", payloadGet entries "iss"),
   ("token_use", payloadGet entries "token_use")]

/-- Python `str.lower()` on a header name (ASCII case folding as done by
`Char.toLower` character by character). -/
def pyLower (s : String) : String := String.mk (s.data.map Char.toLower)

/-- The case-insensitive header scan (lines 44-48): value of the first
header whose lowercased name is `x-cognito-id-token`. -/
def find_id_token (headers : List (String × Json)) : Option Json :=
  (headers.find? (fun kv => pyLower kv.1 = "x-cognito-id-token")).map (fun kv => kv.2)

/-- Model of `get_user_info_from_token`.  An event is the request JSON
object (an association list).  Every Python exception path inside the
function's `try` block — headers not a dict, a non-string token value,
a payload without `.get` — ends in the caught-exception result
`(None, [])`, as does every explicit early return. -/
def get_user_info_from_token (event : List (String × Json)) :
    Option (List (String × Json)) × List Json :=
  match dictGetD event "headers" (Json.obj []) with
  | Json.obj hs =>
    match find_id_token hs with
    | none => (none, [])
    | some v =>
      if jsonFalsy v then (none, [])
      else
        match v with
        | Json.str tok =>
          match decode_jwt_payload tok with
          | none => (none, [])
          | some payload =>
            if jsonFalsy payload then (none, [])
            else
              match payload with
              | Json.obj entries => (some (mkTokenUserInfo entries), extract_groups entries)
              | _ => (none, [])
        | _ => (none, [])
  | _ => (none, [])

/-- Model of `get_user_from_cognito_context` (lines 102-121): read the
ambient identity fields, each `None` when absent; a non-dict
`requestContext` or `identity` value raises inside the `try` and yields
the caught-exception result `(None, [])`. -/
def get_user_from_cognito_context (event : List (String × Json)) :
    Option (List (String × Json)) × List Json :=
  match dictGetD event "requestContext" (Json.obj []) with
  | Json.obj rc =>
    match dictGetD rc "identity" (Json.obj []) with
    | Json.obj idn =>
      (some [("cognito_identity_id", payloadGet idn "cognitoIdentityId"),
             ("cognito_auth_provider", payloadGet idn "cognitoAuthenticationProvider"),
             ("source_ip", payloadGet idn "sourceIp"),
             ("user_agent", payloadGet idn "userAgent")], [])
    | _ => (none, [])
  | _ => (none, [])

/-- The per-request API metadata block (lines 141-147). -/
structure ApiInfo where
  api_id : Json
  stage : Json
  request_id : Json
  http_method : Json
  resource_path : Json
deriving Repr, DecidableEq

/-- The Lambda invocation context; `aws_request_id` is always present on
a real context object. -/
structure LambdaContext where
  aws_request_id : String
deriving Repr, DecidableEq

/-- The JSON object passed to `json.dumps` for the response body
(lines 154-165), in field order. -/
structure HandlerBody where
  message : String
  user_info : Option (List (String × Json))
  user_groups : List Json
  is_admin : Bool
  is_viewer : Bool
  api_info : ApiInfo
  timestamp : String
deriving Repr, DecidableEq

/-- The handler's HTTP-style response envelope (lines 149-166): status
code, the single `Content-Type` header, and the body object. -/
structure LambdaResponse where
  statusCode : Nat
  contentType : String
  body : HandlerBody
deriving Repr, DecidableEq

/-- Model of `handler`.  The function body has no `try`: if
`requestContext` is present but not a dict, `request_context.get(...)`
on line 142 raises `AttributeError` uncaught, modelled as `none` (no
response is produced).  Otherwise the fixed 200 response is built. -/
def handler (event : List (String × Json)) (context : LambdaContext) :
    Option LambdaResponse :=
  let r1 := get_user_info_from_token event
  let r2 := if r1.1.isNone then get_user_from_cognito_context event else r1
  let is_admin := r2.2.contains (Json.str "Admin")
  let is_viewer := r2.2.contains (Json.str "Viewer")
  match dictGetD event "requestContext" (Json.obj []) with
  | Json.obj rc =>
    some ⟨200, "application/json",
      ⟨"Hello from Lambda!", r2.1, r2.2, is_admin, is_viewer,
        ⟨payloadGet rc "apiId", payloadGet rc "stage", payloadGet rc "requestId",
         payloadGet rc "httpMethod", payloadGet rc "resourcePath"⟩,
        context.aws_request_id⟩⟩
  | _ => none

/-! ### Synthetic token construction for the round-trip property

The serializer models Python `json.dumps` with its defaults
(`ensure_ascii=True`, item separator `", "`, key separator `": "`), and
the encoder models `base64.urlsafe_b64encode` with the padding stripped,
which is how the round-trip sentence of the specification builds the
middle segment of a synthetic token. -/

/-- Lowercase hexadecimal digit character. -/
def hexChar (d : Nat) : Char :=
  if d < 10 then Char.ofNat (48 + d) else Char.ofNat (87 + d)

/-- Four lowercase hexadecimal digits of a value below `0x10000`. -/
def toHex4 (n : Nat) : List Char :=
  [hexChar (n / 4096), hexChar (n / 256 % 16), hexChar (n / 16 % 16), hexChar (n % 16)]

/-- Escape one character as `json.dumps` does with `ensure_ascii=True`:
printable ASCII except quote and backslash is literal, the short escapes
for the usual controls, `\uXXXX` otherwise, with a surrogate pair above
`0xFFFF`. -/
def escapeChar (c : Char) : List Char :=
  if c = '"' then ['\\', '"']
  else if c = '\\' then ['\\', '\\']
  else if c = '\n' then ['\\', 'n']
  else if c = '\r' then ['\\', 'r']
  else if c = '\t' then ['\\', 't']
  else if c = Char.ofNat 8 then ['\\', 'b']
  else if c = Char.ofNat 12 then ['\\', 'f']
  else if 0x20 ≤ c.toNat ∧ c.toNat ≤ 0x7E then [c]
  else if c.toNat < 0x10000 then '\\' :: 'u' :: toHex4 c.toNat
  else
    '\\' :: 'u' :: toHex4 (0xD800 + (c.toNat - 0x10000) / 0x400) ++
      ('\\' :: 'u' :: toHex4 (0xDC00 + (c.toNat - 0x10000) % 0x400))

/-- Escape every character of a string body. -/
def escapeChars : List Char → List Char
  | [] => []
  | c :: t => escapeChar c ++ escapeChars t

/-- Serialize a JSON string with its quotes. -/
def printString (s : String) : List Char :=
  '"' :: (escapeChars s.data ++ ['"'])

/-- Decimal digit characters of a natural number below the fuel bound
(structural recursion on the fuel so the kernel can evaluate it). -/
def natDigitsF : Nat → Nat → List Char
  | 0, _ => []
  | Nat.succ f, n =>
    if n < 10 then [Char.ofNat (48 + n)]
    else natDigitsF f (n / 10) ++ [Char.ofNat (48 + n % 10)]

/-- Decimal digit characters of a natural number. -/
def natDigits (n : Nat) : List Char := natDigitsF (n + 1) n

/-- Serialize a JSON integer. -/
def printNum (n : Int) : List Char :=
  if n < 0 then '-' :: natDigits n.natAbs else natDigits n.natAbs

mutual

/-- Serialize a JSON value as `json.dumps` does with default options. -/
def printValue : Json → List Char
  | .null => "null".data
  | .bool true => "true".data
  | .bool false => "false".data
  | .num n => printNum n
  | .str s => printString s
  | .arr [] => ['[', ']']
  | .arr (x :: xs) => '[' :: (printValue x ++ printRest xs ++ [']'])
  | .obj [] => [lbrace, rbrace]
  | .obj ((k, v) :: es) =>
    lbrace :: (printString k ++ ':' :: ' ' :: printValue v ++ printMRest es ++ [rbrace])
termination_by structural j => j

/-- Serialize the remaining elements of an array, each preceded by the
default `", "` separator. -/
def printRest : List Json → List Char
  | [] => []
  | x :: xs => ',' :: ' ' :: (printValue x ++ printRest xs)
termination_by structural l => l

/-- Serialize the remaining members of an object, each preceded by the
default `", "` separator and using the `": "` key separator. -/
def printMRest : List (String × Json) → List Char
  | [] => []
  | (k, v) :: es => ',' :: ' ' :: (printString k ++ ':' :: ' ' :: printValue v ++ printMRest es)
termination_by structural l => l

end

/-- Model of `json.dumps` with default options. -/
def dumps (j : Json) : String := String.mk (printValue j)

/-- UTF-8 encoding of one unicode scalar value. -/
def utf8EncodeChar (c : Char) : List Nat :=
  let n := c.toNat
  if n < 0x80 then [n]
  else if n < 0x800 then [0xC0 + n / 64, 0x80 + n % 64]
  else if n < 0x10000 then [0xE0 + n / 4096, 0x80 + n / 64 % 64, 0x80 + n % 64]
  else [0xF0 + n / 0x40000, 0x80 + n / 4096 % 64, 0x80 + n / 64 % 64, 0x80 + n % 64]

/-- UTF-8 encoding of a string (`str.encode()` in Python). -/
def utf8Encode : List Char → List Nat
  | [] => []
  | c :: t => utf8EncodeChar c ++ utf8Encode t

/-- Character of a 6-bit value in the urlsafe base64 alphabet. -/
def b64urlChar (n : Nat) : Char :=
  if n < 26 then Char.ofNat (65 + n)
  else if n < 52 then Char.ofNat (97 + (n - 26))
  else if n < 62 then Char.ofNat (48 + (n - 52))
  else if n = 62 then '-'
  else '_'

/-- `base64.urlsafe_b64encode` with the `=` padding stripped: 3 bytes to
4 characters, a final byte to 2 characters, two final bytes to 3. -/
def b64urlEncodeNoPad : List Nat → List Char
  | [] => []
  | [b1] => [b64urlChar (b1 / 4), b64urlChar (b1 % 4 * 16)]
  | [b1, b2] =>
    [b64urlChar (b1 / 4), b64urlChar (b1 % 4 * 16 + b2 / 16), b64urlChar (b2 % 16 * 4)]
  | b1 :: b2 :: b3 :: rest =>
    b64urlChar (b1 / 4) :: b64urlChar (b1 % 4 * 16 + b2 / 16) ::
      b64urlChar (b2 % 16 * 4 + b3 / 64) :: b64urlChar (b3 % 64) :: b64urlEncodeNoPad rest

/-- The middle segment of the synthetic token: serialize, UTF-8 encode,
base64url encode without padding. -/
def encodeMiddle (j : Json) : List Char :=
  b64urlEncodeNoPad (utf8Encode (dumps j).data)

/-- A synthetic three-part dot-delimited token whose middle segment
carries the given JSON value. -/
def mkSyntheticToken (hdr : String) (j : Json) (sig : String) : String :=
  hdr ++ "." ++ String.mk (encodeMiddle j) ++ "." ++ sig

/-- Whether a key already occurs in an association list. -/
def keyIn (k : String) : List (String × Json) → Bool
  | [] => false
  | (k2, _) :: es => k = k2 || keyIn k es

mutual

/-- Every object anywhere in the value has pairwise-distinct keys: the
faithful-representation condition for Python dicts, whose keys are
necessarily distinct. -/
def nodupKeysJson : Json → Bool
  | .arr xs => nodupKeysArr xs
  | .obj es => nodupKeysObj es
  | _ => true
termination_by structural j => j

/-- `nodupKeysJson` over the elements of an array. -/
def nodupKeysArr : List Json → Bool
  | [] => true
  | x :: xs => nodupKeysJson x && nodupKeysArr xs
termination_by structural l => l

/-- Keys pairwise distinct at this level and `nodupKeysJson` in every
value. -/
def nodupKeysObj : List (String × Json) → Bool
  | [] => true
  | (k, v) :: es => !keyIn k es && nodupKeysJson v && nodupKeysObj es
termination_by structural l => l

end

mutual

/-- Fuel lower bound sufficient for `parseValue` on this value. -/
def sizeJ : Json → Nat
  | .arr xs => 1 + sizeE xs
  | .obj es => 1 + sizeM es
  | _ => 1
termination_by structural j => j

/-- Fuel lower bound sufficient for `parseElems` on these elements. -/
def sizeE : List Json → Nat
  | [] => 0
  | x :: xs => 1 + sizeJ x + sizeE xs
termination_by structural l => l

/-- Fuel lower bound sufficient for `parseMembers` on these members. -/
def sizeM : List (String × Json) → Nat
  | [] => 0
  | (_, v) :: es => 1 + sizeJ v + sizeM es
termination_by structural l => l

end

/-! ## Theorems -/

theorem splitOnDot_ne_nil : ∀ l : List Char, splitOnDot l ≠ []
  | [] => by simp [splitOnDot]
  | c :: rest => by
    by_cases h : c = '.'
    · simp [splitOnDot, h]
    · cases hs : splitOnDot rest with
      | nil => simp [splitOnDot, h, hs]
      | cons g gs => simp [splitOnDot, h, hs]

theorem splitOnDot_length : ∀ l : List Char, (splitOnDot l).length = l.count '.' + 1
  | [] => by simp [splitOnDot]
  | c :: rest => by
    by_cases h : c = '.'
    · simp [splitOnDot, h, List.count_cons, splitOnDot_length rest]
    · cases hs : splitOnDot rest with
      | nil => exact absurd hs (splitOnDot_ne_nil rest)
      | cons g gs =>
        have hlen := splitOnDot_length rest
        rw [hs] at hlen
        simp [splitOnDot, h, hs, List.count_cons, List.length_cons] at hlen ⊢
        omega

/-- C2: for every token with exactly three dot-separated segments the
decoder hands `decodeSegment` the second segment extended by exactly
`(4 - length % 4) % 4` padding characters: none when the length is a
multiple of 4, and exactly `4 - length % 4` (between 1 and 3) characters
otherwise. -/
theorem c2_decoder_padding :
    (∀ (t : String) (h p s : List Char), splitOnDot t.data = [h, p, s] →
      decode_jwt_payload t = decodeSegment (pad_payload p)) ∧
    (∀ p : List Char, pad_payload p = p ++ List.replicate ((4 - p.length % 4) % 4) '=') ∧
    (∀ p : List Char, p.length % 4 = 0 → pad_payload p = p) ∧
    (∀ p : List Char, p.length % 4 ≠ 0 →
      (pad_payload p).length = p.length + (4 - p.length % 4) ∧
      1 ≤ 4 - p.length % 4 ∧ 4 - p.length % 4 ≤ 3) := by
  refine ⟨?_, ?_, ?_, ?_⟩
  · intro t h p s hsplit
    unfold decode_jwt_payload
    rw [hsplit]
  · intro p
    unfold pad_payload
    by_cases hp : p.length % 4 = 0
    · have h4 : ¬(4 - p.length % 4 ≠ 4) := by omega
      have h0 : (4 - p.length % 4) % 4 = 0 := by omega
      simp [h4, h0]
    · have h4 : 4 - p.length % 4 ≠ 4 := by omega
      have hm : (4 - p.length % 4) % 4 = 4 - p.length % 4 := by omega
      simp [h4, hm]
  · intro p hp
    have h4 : ¬(4 - p.length % 4 ≠ 4) := by omega
    simp [pad_payload, h4]
  · intro p hp
    have h4 : 4 - p.length % 4 ≠ 4 := by omega
    refine ⟨?_, by omega, by omega⟩
    simp [pad_payload, h4]

/-- Witness for C2 at concrete segments: a 2-character segment gets two
padding characters, a 3-character segment gets one, a 4-character
segment none, and a concrete three-segment token is routed through
`decodeSegment` of its padded middle segment. -/
theorem c2_decoder_padding_witness :
    decode_jwt_payload "a.bc.d" = decodeSegment (pad_payload ['b', 'c']) ∧
    pad_payload ['b', 'c'] = ['b', 'c', '=', '='] ∧
    pad_payload ['e', '3', '0'] = ['e', '3', '0', '='] ∧
    pad_payload ['e', '3', '0', '0'] = ['e', '3', '0', '0'] :=
  ⟨c2_decoder_padding.1 "a.bc.d" ['a'] ['b', 'c'] ['d'] (by rfl),
   by rw [c2_decoder_padding.2.1 ['b', 'c']]; rfl,
   by rw [c2_decoder_padding.2.1 ['e', '3', '0']]; rfl,
   c2_decoder_padding.2.2.1 ['e', '3', '0', '0'] (by rfl)⟩

/-- C3: a token that does not split into exactly three dot-separated
segments decodes to the invalid sentinel `None`; splitting yields one
more segment than the number of dots, so this is exactly the tokens
without two dots.  The decoder is a total function into `Option`, so no
input makes it raise. -/
theorem c3_invalid_format :
    (∀ t : String, (splitOnDot t.data).length ≠ 3 → decode_jwt_payload t = none) ∧
    (∀ t : String, (splitOnDot t.data).length = t.data.count '.' + 1) := by
  constructor
  · intro t hlen
    unfold decode_jwt_payload
    cases h1 : splitOnDot t.data with
    | nil => rfl
    | cons a l1 =>
      cases l1 with
      | nil => rfl
      | cons b l2 =>
        cases l2 with
        | nil => rfl
        | cons c l3 =>
          cases l3 with
          | nil => rw [h1] at hlen; simp at hlen
          | cons d l4 => rfl
  · intro t
    exact splitOnDot_length t.data

/-- Witness for C3: the dotless token `"abc"` splits into one segment
and decodes to `none`. -/
theorem c3_invalid_format_witness :
    decode_jwt_payload "abc" = none ∧ (splitOnDot "abc".data).length = 1 :=
  ⟨c3_invalid_format.1 "abc" (by decide),
   by rw [c3_invalid_format.2 "abc"]; decide⟩

/-- C1: the group list comes only from the first claim name present in
the fixed order `cognito:groups`, `groups`, `custom:groups`, `memberOf`,
`roles`; the matched value contributes its elements verbatim when a
list, its comma-separated whitespace-trimmed pieces when a string, and
nothing otherwise (the scan still stops there); with none of the five
names present the group list is empty. -/
theorem c1_group_priority :
    (∀ e, hasKey e "cognito:groups" = true →
      extract_groups e = groupsOfValue (payloadGet e "cognito:groups")) ∧
    (∀ e, hasKey e "cognito:groups" = false → hasKey e "groups" = true →
      extract_groups e = groupsOfValue (payloadGet e "groups")) ∧
    (∀ e, hasKey e "cognito:groups" = false → hasKey e "groups" = false →
      hasKey e "custom:groups" = true →
      extract_groups e = groupsOfValue (payloadGet e "custom:groups")) ∧
    (∀ e, hasKey e "cognito:groups" = false → hasKey e "groups" = false →
      hasKey e "custom:groups" = false → hasKey e "memberOf" = true →
      extract_groups e = groupsOfValue (payloadGet e "memberOf")) ∧
    (∀ e, hasKey e "cognito:groups" = false → hasKey e "groups" = false →
      hasKey e "custom:groups" = false → hasKey e "memberOf" = false →
      hasKey e "roles" = true →
      extract_groups e = groupsOfValue (payloadGet e "roles")) ∧
    (∀ e, hasKey e "cognito:groups" = false → hasKey e "groups" = false →
      hasKey e "custom:groups" = false → hasKey e "memberOf" = false →
      hasKey e "roles" = false → extract_groups e = []) ∧
    (∀ xs, groupsOfValue (Json.arr xs) = xs) ∧
    (∀ s, groupsOfValue (Json.str s) =
      (splitOnComma s.data).map (fun g => Json.str (String.mk (pyStrip g)))) ∧
    (∀ v, (∀ xs, v ≠ Json.arr xs) → (∀ s, v ≠ Json.str s) → groupsOfValue v = []) := by
  refine ⟨?_, ?_, ?_, ?_, ?_, ?_, ?_, ?_, ?_⟩
  · intro e h1
    simp [extract_groups, possible_group_claims, List.find?, h1]
  · intro e h1 h2
    simp [extract_groups, possible_group_claims, List.find?, h1, h2]
  · intro e h1 h2 h3
    simp [extract_groups, possible_group_claims, List.find?, h1, h2, h3]
  · intro e h1 h2 h3 h4
    simp [extract_groups, possible_group_claims, List.find?, h1, h2, h3, h4]
  · intro e h1 h2 h3 h4 h5
    simp [extract_groups, possible_group_claims, List.find?, h1, h2, h3, h4, h5]
  · intro e h1 h2 h3 h4 h5
    simp [extract_groups, possible_group_claims, List.find?, h1, h2, h3, h4, h5]
  · intro xs; rfl
  · intro s; rfl
  · intro v hna hns
    cases v with
    | arr xs => exact absurd rfl (hna xs)
    | str s => exact absurd rfl (hns s)
    | _ => rfl

/-- Witness for C1 at concrete payloads: a `groups` number claim
shadows a usable `roles` claim and yields no groups; a `groups` string
claim is split and trimmed; an absent claim set yields no groups. -/
theorem c1_group_priority_witness :
    extract_groups [("groups", Json.num 5), ("roles", Json.arr [Json.str "Admin"])] = [] ∧
    extract_groups [("groups", Json.str "Admin, Viewer")] =
      [Json.str "Admin", Json.str "Viewer"] ∧
    extract_groups [("other", Json.num 1)] = [] := by
  refine ⟨?_, ?_, ?_⟩
  · rw [c1_group_priority.2.1 [("groups", Json.num 5), ("roles", Json.arr [Json.str "Admin"])]
      (by rfl) (by rfl)]
    rfl
  · rw [c1_group_priority.2.1 [("groups", Json.str "Admin, Viewer")] (by rfl) (by rfl)]
    rfl
  · exact c1_group_priority.2.2.2.2.2.1 [("other", Json.num 1)]
      (by rfl) (by rfl) (by rfl) (by rfl) (by rfl)

/-- C5: in every response the handler produces, `is_admin` holds exactly
when the string `"Admin"` is a member of the response group list and
`is_viewer` exactly when `"Viewer"` is, by case-sensitive equality; for
the payload claim `cognito:groups = ["Admin", "X"]` the group list is
`["Admin", "X"]`, which contains `"Admin"` and not `"Viewer"`. -/
theorem c5_role_flags :
    (∀ event ctx r, handler event ctx = some r →
      ((r.body.is_admin = true) ↔ Json.str "Admin" ∈ r.body.user_groups) ∧
      ((r.body.is_viewer = true) ↔ Json.str "Viewer" ∈ r.body.user_groups)) ∧
    extract_groups [("cognito:groups", Json.arr [Json.str "Admin", Json.str "X"])] =
      [Json.str "Admin", Json.str "X"] ∧
    ([Json.str "Admin", Json.str "X"].contains (Json.str "Admin") = true) ∧
    ([Json.str "Admin", Json.str "X"].contains (Json.str "Viewer") = false) := by
  refine ⟨?_, by rfl, by rfl, by rfl⟩
  intro event ctx r h
  simp only [handler] at h
  cases hrc : dictGetD event "requestContext" (Json.obj []) <;> rw [hrc] at h <;>
    try exact Option.noConfusion h
  injection h with h2
  subst h2
  constructor <;> simpa using List.elem_iff

/-- C6: the token locator returns the value of the first header, in
iteration order, whose lowercased name is `x-cognito-id-token`, and the
not-found sentinel when no header name matches; in particular a header
named `X-COGNITO-ID-TOKEN` is found, and when it carries a token that
decodes to a nonempty JSON object the full extraction proceeds
normally. -/
theorem c6_header_locator :
    (∀ hs : List (String × Json), (∀ kv ∈ hs, pyLower kv.1 ≠ "x-cognito-id-token") →
      find_id_token hs = none) ∧
    (∀ (pre : List (String × Json)) k v post, pyLower k = "x-cognito-id-token" →
      (∀ kv ∈ pre, pyLower kv.1 ≠ "x-cognito-id-token") →
      find_id_token (pre ++ (k, v) :: post) = some v) ∧
    (∀ v rest, find_id_token (("X-COGNITO-ID-TOKEN", v) :: rest) = some v) ∧
    (∀ (tok : String) entries, decode_jwt_payload tok = some (Json.obj entries) →
      entries ≠ [] →
      get_user_info_from_token
          [("headers", Json.obj [("X-COGNITO-ID-TOKEN", Json.str tok)])] =
        (some (mkTokenUserInfo entries), extract_groups entries)) := by
  have hfind : ∀ (pre : List (String × Json)) k v post, pyLower k = "x-cognito-id-token" →
      (∀ kv ∈ pre, pyLower kv.1 ≠ "x-cognito-id-token") →
      find_id_token (pre ++ (k, v) :: post) = some v := by
    intro pre
    induction pre with
    | nil =>
      intro k v post hk _
      simp [find_id_token, List.find?, hk]
    | cons kv pre ih =>
      intro k v post hk hpre
      have h1 : pyLower kv.1 ≠ "x-cognito-id-token" := hpre kv (by simp)
      have h2 := ih k v post hk (fun kv2 hm => hpre kv2 (by simp [hm]))
      simp only [find_id_token, List.cons_append, List.find?] at h2 ⊢
      simp only [h1, decide_eq_true_eq, if_neg h1]
      simpa [h1] using h2
  refine ⟨?_, hfind, ?_, ?_⟩
  · intro hs hnone
    have : hs.find? (fun kv => pyLower kv.1 = "x-cognito-id-token") = none :=
      List.find?_eq_none.mpr (fun kv hm => by simpa using hnone kv hm)
    simp [find_id_token, this]
  · intro v rest
    exact hfind [] "X-COGNITO-ID-TOKEN" v rest (by rfl) (by simp)
  · intro tok entries hdec hne
    have htok : tok ≠ "" := by
      intro he
      rw [he] at hdec
      simp [decode_jwt_payload, splitOnDot] at hdec
    have hfalsy : jsonFalsy (Json.str tok) = false := by
      simp [jsonFalsy, Bool.eq_false_iff, String.isEmpty_iff]
      exact htok
    have hfalsy2 : jsonFalsy (Json.obj entries) = false := by
      simp [jsonFalsy, hne]
    have e1 : get_user_info_from_token
        [("headers", Json.obj [("X-COGNITO-ID-TOKEN", Json.str tok)])] =
        (if jsonFalsy (Json.str tok) = true then (none, [])
         else
           match decode_jwt_payload tok with
           | none => (none, [])
           | some payload =>
             if jsonFalsy payload = true then (none, [])
             else
               match payload with
               | Json.obj entries2 => (some (mkTokenUserInfo entries2), extract_groups entries2)
               | _ => (none, [])) := by rfl
    rw [e1, if_neg (by simp [hfalsy]), hdec]
    simp only [hfalsy2, Bool.false_eq_true, if_false]

theorem fallback_groups_nil (event : List (String × Json)) :
    (get_user_from_cognito_context event).2 = [] := by
  unfold get_user_from_cognito_context
  cases h1 : dictGetD event "requestContext" (Json.obj []) with
  | obj rc =>
    dsimp only
    cases h2 : dictGetD rc "identity" (Json.obj []) <;> rfl
  | _ => rfl

theorem handler_uses_fallback (event : List (String × Json)) (ctx : LambdaContext)
    (r : LambdaResponse) (h1 : (get_user_info_from_token event).1 = none)
    (h2 : handler event ctx = some r) :
    r.body.user_info = (get_user_from_cognito_context event).1 ∧
    r.body.user_groups = (get_user_from_cognito_context event).2 ∧
    r.statusCode = 200 := by
  simp only [handler, h1, Option.isNone_none, if_true] at h2
  cases hrc : dictGetD event "requestContext" (Json.obj []) <;> rw [hrc] at h2 <;>
    try exact Option.noConfusion h2
  injection h2 with h3
  subst h3
  exact ⟨rfl, rfl, rfl⟩

/-- C10: when the first matching `x-cognito-id-token` header carries a
falsy value (the empty string, or any other falsy JSON value), the
extractor returns the no-identity sentinel — the value is never decoded,
as the falsy test precedes decoding — and any response the handler then
produces takes its identity and groups from the context fallback. -/
theorem c10_falsy_header_value :
    ∀ (event hs : List (String × Json)) (v : Json),
      dictGetD event "headers" (Json.obj []) = Json.obj hs →
      find_id_token hs = some v → jsonFalsy v = true →
      get_user_info_from_token event = (none, []) ∧
      (∀ ctx r, handler event ctx = some r →
        r.body.user_info = (get_user_from_cognito_context event).1 ∧
        r.body.user_groups = (get_user_from_cognito_context event).2 ∧
        r.statusCode = 200) := by
  intro event hs v h1 h2 h3
  have hmain : get_user_info_from_token event = (none, []) := by
    simp only [get_user_info_from_token, h1, h2, h3, if_true]
  exact ⟨hmain,
    fun ctx r hr => handler_uses_fallback event ctx r (by simp [hmain]) hr⟩

/-- Witness for C10: a present header with the empty-string token on an
event with an identity context; the extractor yields the sentinel and
the handler falls back to the context identity. -/
theorem c10_falsy_header_value_witness :
    get_user_info_from_token
        [("headers", Json.obj [("x-cognito-id-token", Json.str "")]),
         ("requestContext", Json.obj [("identity",
            Json.obj [("sourceIp", Json.str "1.2.3.4")])])] = (none, []) :=
  (c10_falsy_header_value
    [("headers", Json.obj [("x-cognito-id-token", Json.str "")]),
     ("requestContext", Json.obj [("identity", Json.obj [("sourceIp", Json.str "1.2.3.4")])])]
    [("x-cognito-id-token", Json.str "")] (Json.str "")
    (by rfl) (by rfl) (by rfl)).1

/-- C9: when the located token decodes to valid JSON that is not a
nonempty JSON object (the empty object, `null`, a boolean, a number, a
string, or an array), the extractor returns the no-identity sentinel
`(None, [])` — exactly the absent-token result — and any response the
handler produces is built from the context fallback. -/
theorem c9_non_object_payload :
    ∀ (event hs : List (String × Json)) (tok : String) (payload : Json),
      dictGetD event "headers" (Json.obj []) = Json.obj hs →
      find_id_token hs = some (Json.str tok) →
      decode_jwt_payload tok = some payload →
      (∀ entries, payload = Json.obj entries → entries = []) →
      get_user_info_from_token event = (none, []) ∧
      (∀ ctx r, handler event ctx = some r →
        r.body.user_info = (get_user_from_cognito_context event).1 ∧
        r.body.user_groups = (get_user_from_cognito_context event).2 ∧
        r.statusCode = 200) := by
  intro event hs tok payload h1 h2 hdec hno
  have hmain : get_user_info_from_token event = (none, []) := by
    simp only [get_user_info_from_token, h1, h2]
    by_cases hf : jsonFalsy (Json.str tok) = true
    · simp [hf]
    · simp only [hf, if_false, hdec]
      cases payload with
      | obj entries =>
        have he : entries = [] := hno entries rfl
        subst he
        simp [jsonFalsy]
      | null => simp [jsonFalsy]
      | bool b => cases b <;> simp [jsonFalsy]
      | num n => by_cases hn : n = 0 <;> simp [jsonFalsy, hn]
      | str s => by_cases hse : s.isEmpty <;> simp [jsonFalsy, hse]
      | arr xs => cases xs <;> simp [jsonFalsy]
  exact ⟨hmain,
    fun ctx r hr => handler_uses_fallback event ctx r (by simp [hmain]) hr⟩

/-- Witness for C9: a token whose middle segment is `e30` (the empty
object) is located and decoded successfully, yet the extractor returns
the sentinel and the handler responds with the fallback identity. -/
theorem c9_non_object_payload_witness :
    get_user_info_from_token
        [("headers", Json.obj [("x-cognito-id-token", Json.str "h.e30.s")])] = (none, []) :=
  (c9_non_object_payload
    [("headers", Json.obj [("x-cognito-id-token", Json.str "h.e30.s")])]
    [("x-cognito-id-token", Json.str "h.e30.s")] "h.e30.s" (Json.obj [])
    (by rfl) (by rfl) (by rfl)
    (fun entries h => by injection h with h2; exact h2.symm)).1

theorem handler_some_of_obj (event : List (String × Json)) (ctx : LambdaContext)
    (rc : List (String × Json))
    (hrc : dictGetD event "requestContext" (Json.obj []) = Json.obj rc) :
    handler event ctx = some
      ⟨200, "application/json",
        ⟨"Hello from Lambda!",
         (if (get_user_info_from_token event).1.isNone then get_user_from_cognito_context event
          else get_user_info_from_token event).1,
         (if (get_user_info_from_token event).1.isNone then get_user_from_cognito_context event
          else get_user_info_from_token event).2,
         (if (get_user_info_from_token event).1.isNone then get_user_from_cognito_context event
          else get_user_info_from_token event).2.contains (Json.str "Admin"),
         (if (get_user_info_from_token event).1.isNone then get_user_from_cognito_context event
          else get_user_info_from_token event).2.contains (Json.str "Viewer"),
         ⟨payloadGet rc "apiId", payloadGet rc "stage", payloadGet rc "requestId",
          payloadGet rc "httpMethod", payloadGet rc "resourcePath"⟩,
         ctx.aws_request_id⟩⟩ := by
  simp only [handler, hrc]

/-- Counterexample to C7 as stated: on the event whose `requestContext`
is the number `5`, no token is located, the fallback extractor hits its
internal exception and returns the null identity — but the handler then
raises uncaught at `request_context.get("apiId")` (line 142), so no
HTTP 200 response is produced at all. -/
theorem c7_counterexample :
    (get_user_info_from_token [("requestContext", Json.num 5)]).1 = none ∧
    get_user_from_cognito_context [("requestContext", Json.num 5)] = (none, []) ∧
    handler [("requestContext", Json.num 5)] ⟨"req-c7"⟩ = none :=
  ⟨rfl, rfl, rfl⟩

/-- C7 (amended): for every request whose `requestContext` member, when
present, is a JSON object, if no token is located or decoding fails then
the handler responds 200 with the identity produced by the context
fallback — the four `requestContext.identity` fields, each null when
absent — an empty group list, and both role booleans false; the fallback
extractor itself is total, returning a null identity on its internal
exception paths. -/
theorem c7_context_fallback :
    ∀ (event : List (String × Json)) (ctx : LambdaContext),
      (dictGetD event "requestContext" (Json.obj [])).isObj = true →
      (get_user_info_from_token event).1 = none →
      ∃ r, handler event ctx = some r ∧ r.statusCode = 200 ∧
        r.body.user_info = (get_user_from_cognito_context event).1 ∧
        r.body.user_groups = [] ∧
        r.body.is_admin = false ∧ r.body.is_viewer = false ∧
        (∀ rc idn, dictGetD event "requestContext" (Json.obj []) = Json.obj rc →
          dictGetD rc "identity" (Json.obj []) = Json.obj idn →
          (get_user_from_cognito_context event).1 =
            some [("cognito_identity_id", payloadGet idn "cognitoIdentityId"),
                  ("cognito_auth_provider", payloadGet idn "cognitoAuthenticationProvider"),
                  ("source_ip", payloadGet idn "sourceIp"),
                  ("user_agent", payloadGet idn "userAgent")]) := by
  intro event ctx hobj htok
  have hgroups := fallback_groups_nil event
  cases hrc : dictGetD event "requestContext" (Json.obj []) <;> rw [hrc] at hobj <;>
    try simp [Json.isObj] at hobj
  case obj rc =>
  refine ⟨_, handler_some_of_obj event ctx rc hrc, rfl, ?_, ?_, ?_, ?_, ?_⟩
  · simp [htok]
  · simp [htok, hgroups]
  · simp [htok, hgroups]
  · simp [htok, hgroups]
  · intro rc2 idn h1 h2
    injection h1 with h1
    subst h1
    simp only [get_user_from_cognito_context, hrc, h2]

/-- Witness for C7 at a concrete event: tokenless request with an
identity block carrying only a source address. -/
theorem c7_context_fallback_witness :
    ∃ r, handler [("requestContext", Json.obj [("identity",
          Json.obj [("sourceIp", Json.str "1.2.3.4")])])] ⟨"req-w7"⟩ = some r ∧
      r.statusCode = 200 ∧
      r.body.user_info = (get_user_from_cognito_context
        [("requestContext", Json.obj [("identity",
          Json.obj [("sourceIp", Json.str "1.2.3.4")])])]).1 := by
  obtain ⟨r, h1, h2, h3, _⟩ := c7_context_fallback
    [("requestContext", Json.obj [("identity", Json.obj [("sourceIp", Json.str "1.2.3.4")])])]
    ⟨"req-w7"⟩ (by rfl) (by rfl)
  exact ⟨r, h1, h2, h3⟩

/-- Counterexample to C4 as stated: an event whose `requestContext` is
the string `"nope"` makes line 142 (`request_context.get("apiId")`)
raise `AttributeError` outside any `try`, so the handler produces no
response, let alone a 200 one. -/
theorem c4_counterexample :
    handler [("requestContext", Json.str "nope")] ⟨"req-c4"⟩ = none := rfl

/-- C4 (amended): for every request event whose `requestContext` member,
when present, is a JSON object, the handler returns a response with
status code 200 and the `Content-Type: application/json` header — every
failure of token location, payload decoding, claim extraction or
fallback extraction degrades to a partial body, never to a non-200
response or an uncaught exception. -/
theorem c4_always_200 :
    ∀ (event : List (String × Json)) (ctx : LambdaContext),
      (dictGetD event "requestContext" (Json.obj [])).isObj = true →
      ∃ r, handler event ctx = some r ∧ r.statusCode = 200 ∧
        r.contentType = "application/json" := by
  intro event ctx hobj
  cases hrc : dictGetD event "requestContext" (Json.obj []) <;> rw [hrc] at hobj <;>
    try simp [Json.isObj] at hobj
  case obj rc =>
  exact ⟨_, handler_some_of_obj event ctx rc hrc, rfl, rfl⟩

/-- Witness for C4: the empty event (no headers, no request context)
still gets a 200 `application/json` response. -/
theorem c4_always_200_witness :
    ∃ r, handler [] ⟨"req-w4"⟩ = some r ∧ r.statusCode = 200 ∧
      r.contentType = "application/json" :=
  c4_always_200 [] ⟨"req-w4"⟩ (by rfl)

/-- Witness for C5: a request carrying a token whose payload holds
`cognito:groups = ["Admin", "X"]` produces a response whose group list
is exactly that list, with `is_admin` true and `is_viewer` false, and
the membership equivalence holds on it. -/
theorem c5_role_flags_witness :
    ∃ r, handler [("headers", Json.obj [("x-cognito-id-token",
        Json.str "h.eyJjb2duaXRvOmdyb3VwcyI6IFsiQWRtaW4iLCAiWCJdfQ.s")])] ⟨"req-w5"⟩ =
        some r ∧
      ((r.body.is_admin = true) ↔ Json.str "Admin" ∈ r.body.user_groups) ∧
      r.body.user_groups = [Json.str "Admin", Json.str "X"] ∧
      r.body.is_admin = true ∧ r.body.is_viewer = false := by
  refine ⟨_, rfl, ?_, rfl, rfl, rfl⟩
  exact (c5_role_flags.1
    [("headers", Json.obj [("x-cognito-id-token",
      Json.str "h.eyJjb2duaXRvOmdyb3VwcyI6IFsiQWRtaW4iLCAiWCJdfQ.s")])]
    ⟨"req-w5"⟩ _ rfl).1

/-- Witness for C6: the upper-cased header name is located and a token
with payload `{"a": 1}` is extracted into the normal user-info record
with an empty group list. -/
theorem c6_header_locator_witness :
    find_id_token [("X-COGNITO-ID-TOKEN", Json.str "t")] = some (Json.str "t") ∧
    get_user_info_from_token
        [("headers", Json.obj [("X-COGNITO-ID-TOKEN", Json.str "h.eyJhIjogMX0.s")])] =
      (some (mkTokenUserInfo [("a", Json.num 1)]), extract_groups [("a", Json.num 1)]) :=
  ⟨c6_header_locator.2.2.1 (Json.str "t") [],
   c6_header_locator.2.2.2 "h.eyJhIjogMX0.s" [("a", Json.num 1)] (by rfl) (by simp)⟩

/-! ### Round-trip: base64 layer -/

theorem pad_payload_replicate (p : List Char) :
    pad_payload p = p ++ List.replicate ((4 - p.length % 4) % 4) '=' := by
  unfold pad_payload
  by_cases hp : p.length % 4 = 0
  · have h4 : ¬(4 - p.length % 4 ≠ 4) := by omega
    have h0 : (4 - p.length % 4) % 4 = 0 := by omega
    simp [h4, h0]
  · have h4 : 4 - p.length % 4 ≠ 4 := by omega
    have hm : (4 - p.length % 4) % 4 = 4 - p.length % 4 := by omega
    simp [h4, hm]

theorem b64Val_urlsafeTr_char : ∀ n, n < 64 → b64Val (urlsafeTr (b64urlChar n)) = some n := by
  decide

theorem b64urlChar_ne_eq : ∀ n, n < 64 → urlsafeTr (b64urlChar n) ≠ '=' := by
  decide

theorem b64urlChar_ne_dot : ∀ n, n < 64 → b64urlChar n ≠ '.' := by
  decide

theorem b64urlEncodeNoPad_mem :
    ∀ bs : List Nat, (∀ b ∈ bs, b < 256) →
      ∀ c ∈ b64urlEncodeNoPad bs, ∃ n, n < 64 ∧ c = b64urlChar n
  | [], _ => by simp [b64urlEncodeNoPad]
  | [b1], hb => by
    have h1 : b1 < 256 := hb b1 (by simp)
    simp only [b64urlEncodeNoPad, List.mem_cons, List.mem_singleton, List.not_mem_nil]
    rintro c (rfl | rfl | h)
    · exact ⟨b1 / 4, by omega, rfl⟩
    · exact ⟨b1 % 4 * 16, by omega, rfl⟩
    · cases h
  | [b1, b2], hb => by
    have h1 : b1 < 256 := hb b1 (by simp)
    have h2 : b2 < 256 := hb b2 (by simp)
    simp only [b64urlEncodeNoPad, List.mem_cons, List.not_mem_nil]
    rintro c (rfl | rfl | rfl | h)
    · exact ⟨b1 / 4, by omega, rfl⟩
    · exact ⟨b1 % 4 * 16 + b2 / 16, by omega, rfl⟩
    · exact ⟨b2 % 16 * 4, by omega, rfl⟩
    · cases h
  | b1 :: b2 :: b3 :: rest, hb => by
    have h1 : b1 < 256 := hb b1 (by simp)
    have h2 : b2 < 256 := hb b2 (by simp)
    have h3 : b3 < 256 := hb b3 (by simp)
    have ih := b64urlEncodeNoPad_mem rest (fun b hm => hb b (by simp [hm]))
    simp only [b64urlEncodeNoPad, List.mem_cons]
    rintro c (rfl | rfl | rfl | rfl | h)
    · exact ⟨b1 / 4, by omega, rfl⟩
    · exact ⟨b1 % 4 * 16 + b2 / 16, by omega, rfl⟩
    · exact ⟨b2 % 16 * 4 + b3 / 64, by omega, rfl⟩
    · exact ⟨b3 % 64, by omega, rfl⟩
    · exact ih c h

theorem b64urlEncodeNoPad_length_mod :
    ∀ bs : List Nat, (b64urlEncodeNoPad bs).length % 4 =
      (if bs.length % 3 = 0 then 0 else bs.length % 3 + 1)
  | [] => by simp [b64urlEncodeNoPad]
  | [b1] => by simp [b64urlEncodeNoPad]
  | [b1, b2] => by simp [b64urlEncodeNoPad]
  | b1 :: b2 :: b3 :: rest => by
    have ih := b64urlEncodeNoPad_length_mod rest
    simp only [b64urlEncodeNoPad, List.length_cons]
    have hm : (rest.length + 1 + 1 + 1) % 3 = rest.length % 3 := by omega
    rw [hm]
    by_cases h3 : rest.length % 3 = 0 <;> simp [h3] at ih ⊢ <;> omega

theorem b64_decode_encode :
    ∀ bs : List Nat, (∀ b ∈ bs, b < 256) →
      (b64Vals ((b64urlEncodeNoPad bs).map urlsafeTr)).bind sextetsToBytes = some bs
  | [], _ => by rfl
  | [b1], hb => by
    have h1 : b1 < 256 := hb b1 (by simp)
    have e1 : b1 / 4 * 4 + b1 % 4 * 16 / 16 = b1 := by omega
    simp [b64urlEncodeNoPad, b64Vals, b64Val_urlsafeTr_char (b1 / 4) (by omega),
      b64Val_urlsafeTr_char (b1 % 4 * 16) (by omega), sextetsToBytes, e1]
    omega
  | [b1, b2], hb => by
    have h1 : b1 < 256 := hb b1 (by simp)
    have h2 : b2 < 256 := hb b2 (by simp)
    have e1 : b1 / 4 * 4 + (b1 % 4 * 16 + b2 / 16) / 16 = b1 := by omega
    have e2 : (b1 % 4 * 16 + b2 / 16) % 16 * 16 + b2 % 16 * 4 / 4 = b2 := by omega
    simp [b64urlEncodeNoPad, b64Vals, b64Val_urlsafeTr_char (b1 / 4) (by omega),
      b64Val_urlsafeTr_char (b1 % 4 * 16 + b2 / 16) (by omega),
      b64Val_urlsafeTr_char (b2 % 16 * 4) (by omega), sextetsToBytes, e1, e2]
    omega
  | b1 :: b2 :: b3 :: rest, hb => by
    have h1 : b1 < 256 := hb b1 (by simp)
    have h2 : b2 < 256 := hb b2 (by simp)
    have h3 : b3 < 256 := hb b3 (by simp)
    have ih := b64_decode_encode rest (fun b hm => hb b (by simp [hm]))
    obtain ⟨sx, hsx, hby⟩ : ∃ sx, b64Vals ((b64urlEncodeNoPad rest).map urlsafeTr) = some sx ∧
        sextetsToBytes sx = some rest := by
      cases hmm : b64Vals ((b64urlEncodeNoPad rest).map urlsafeTr) with
      | none => rw [hmm] at ih; simp at ih
      | some sx =>
        rw [hmm] at ih
        simp only [Option.some_bind] at ih
        exact ⟨sx, rfl, ih⟩
    have e1 : b1 / 4 * 4 + (b1 % 4 * 16 + b2 / 16) / 16 = b1 := by omega
    have e2 : (b1 % 4 * 16 + b2 / 16) % 16 * 16 + (b2 % 16 * 4 + b3 / 64) / 4 = b2 := by omega
    have e3 : (b2 % 16 * 4 + b3 / 64) % 4 * 64 + b3 % 64 = b3 := by omega
    have heq : ∀ t, sextetsToBytes (b1 / 4 :: (b1 % 4 * 16 + b2 / 16) ::
        (b2 % 16 * 4 + b3 / 64) :: b3 % 64 :: t) =
        (sextetsToBytes t).map (fun u =>
          (b1 / 4 * 4 + (b1 % 4 * 16 + b2 / 16) / 16) ::
          ((b1 % 4 * 16 + b2 / 16) % 16 * 16 + (b2 % 16 * 4 + b3 / 64) / 4) ::
          ((b2 % 16 * 4 + b3 / 64) % 4 * 64 + b3 % 64) :: u) := fun t => rfl
    simp [b64urlEncodeNoPad, b64Vals, b64Val_urlsafeTr_char (b1 / 4) (by omega),
      b64Val_urlsafeTr_char (b1 % 4 * 16 + b2 / 16) (by omega),
      b64Val_urlsafeTr_char (b2 % 16 * 4 + b3 / 64) (by omega),
      b64Val_urlsafeTr_char (b3 % 64) (by omega), hsx, heq, hby, e1, e2, e3]

theorem takeWhile_replicate_eq (p : Nat) (rest : List Char)
    (hrest : rest.takeWhile (fun c => c = '=') = []) :
    ((List.replicate p '=' ++ rest).takeWhile (fun c => c = '=')).length = p := by
  induction p with
  | zero => simpa using congrArg List.length hrest
  | succ p ih =>
    simp only [List.replicate_succ, List.cons_append, List.takeWhile_cons, decide_True,
      List.length_cons]
    simpa using ih

theorem stripPads_append (cs : List Char) (p : Nat) (hcs : ∀ c ∈ cs, c ≠ '=') :
    stripPads (cs ++ List.replicate p '=') = (cs, p) := by
  have hrev : (cs ++ List.replicate p '=').reverse =
      List.replicate p '=' ++ cs.reverse := by
    rw [List.reverse_append, List.reverse_replicate]
  have hrest : cs.reverse.takeWhile (fun c => c = '=') = [] := by
    cases hr : cs.reverse with
    | nil => rfl
    | cons c t =>
      have hc : c ∈ cs := by
        have : c ∈ cs.reverse := by rw [hr]; simp
        simpa using this
      simp [List.takeWhile_cons, hcs c hc]
  have hlen : ((cs ++ List.replicate p '=').reverse.takeWhile
      (fun c => c = '=')).length = p := by
    rw [hrev]
    exact takeWhile_replicate_eq p cs.reverse hrest
  have htake : (cs ++ List.replicate p '=').length - p = cs.length := by
    simp
  simp only [stripPads, hlen, htake, List.take_left]

theorem b64url_roundtrip (bs : List Nat) (hb : ∀ b ∈ bs, b < 256) :
    urlsafe_b64decode (pad_payload (b64urlEncodeNoPad bs)) = some bs := by
  have hmem := b64urlEncodeNoPad_mem bs hb
  have hlenmod := b64urlEncodeNoPad_length_mod bs
  set e := b64urlEncodeNoPad bs with he
  set q := (4 - e.length % 4) % 4 with hq
  have hpad : pad_payload e = e ++ List.replicate q '=' := pad_payload_replicate e
  have hmap : (e ++ List.replicate q '=').map urlsafeTr =
      e.map urlsafeTr ++ List.replicate q '=' := by
    rw [List.map_append, List.map_replicate]
    rfl
  have hne : ∀ c ∈ e.map urlsafeTr, c ≠ '=' := by
    intro c hcm
    obtain ⟨c0, hc0, rfl⟩ := List.mem_map.mp hcm
    obtain ⟨n, hn, rfl⟩ := hmem c0 hc0
    exact b64urlChar_ne_eq n hn
  have hstrip : stripPads ((e ++ List.replicate q '=').map urlsafeTr) =
      (e.map urlsafeTr, q) := by
    rw [hmap]
    exact stripPads_append (e.map urlsafeTr) q hne
  have hcond : q ≤ 2 ∧ ((e.map urlsafeTr).length + q) % 4 = 0 := by
    rw [List.length_map]
    by_cases h3 : bs.length % 3 = 0 <;> simp [h3] at hlenmod <;> omega
  unfold urlsafe_b64decode
  rw [hpad]
  simp only [hstrip]
  rw [if_pos hcond]
  exact b64_decode_encode bs hb

/-! ### Round-trip: ASCII and UTF-8 layer -/

theorem char_toNat_ofNat (n : Nat) (h : Nat.isValidChar n) : (Char.ofNat n).toNat = n := by
  simp only [Char.ofNat, h, dif_pos, Char.toNat, Char.ofNatAux]
  rfl

theorem char_toNat_ofNat_small (n : Nat) (h : n < 0xD800) : (Char.ofNat n).toNat = n :=
  char_toNat_ofNat n (Or.inl h)

theorem char_toNat_lt (c : Char) : c.toNat < 0x110000 := by
  rcases c.valid with h | h
  · have : c.toNat < 0xD800 := h
    omega
  · exact h.2

theorem hexChar_ascii : ∀ d, d < 16 → (hexChar d).toNat < 128 := by decide

theorem toHex4_ascii (n : Nat) (hn : n < 0x10000) : ∀ d ∈ toHex4 n, d.toNat < 128 := by
  intro d hd
  simp only [toHex4, List.mem_cons, List.not_mem_nil, or_false] at hd
  rcases hd with rfl | rfl | rfl | rfl
  · exact hexChar_ascii _ (by omega)
  · exact hexChar_ascii _ (by omega)
  · exact hexChar_ascii _ (by omega)
  · exact hexChar_ascii _ (by omega)

theorem escapeChar_ascii (c : Char) : ∀ d ∈ escapeChar c, d.toNat < 128 := by
  intro d hd
  unfold escapeChar at hd
  split_ifs at hd with h1 h2 h3 h4 h5 h6 h7 h8 h9
  all_goals simp only [List.cons_append, List.nil_append, List.mem_cons, List.mem_append,
    List.mem_singleton, List.not_mem_nil, or_false] at hd
  · rcases hd with rfl | rfl <;> decide
  · rcases hd with rfl | rfl <;> decide
  · rcases hd with rfl | rfl <;> decide
  · rcases hd with rfl | rfl <;> decide
  · rcases hd with rfl | rfl <;> decide
  · rcases hd with rfl | rfl <;> decide
  · rcases hd with rfl | rfl <;> decide
  · subst hd
    omega
  · rcases hd with rfl | rfl | h
    · decide
    · decide
    · exact toHex4_ascii c.toNat h9 d h
  · have hc : c.toNat < 0x110000 := char_toNat_lt c
    rcases hd with rfl | rfl | h | rfl | rfl | h
    · decide
    · decide
    · exact toHex4_ascii _ (by omega) d h
    · decide
    · decide
    · exact toHex4_ascii _ (by omega) d h

theorem escapeChars_ascii : ∀ s : List Char, ∀ d ∈ escapeChars s, d.toNat < 128
  | [] => by simp [escapeChars]
  | c :: t => by
    intro d hd
    simp only [escapeChars, List.mem_append] at hd
    rcases hd with h | h
    · exact escapeChar_ascii c d h
    · exact escapeChars_ascii t d h

theorem printString_ascii (s : String) : ∀ d ∈ printString s, d.toNat < 128 := by
  intro d hd
  simp only [printString, List.mem_cons, List.mem_append, List.mem_singleton,
    List.not_mem_nil, or_false] at hd
  rcases hd with rfl | h | rfl
  · decide
  · exact escapeChars_ascii s.data d h
  · decide

theorem natDigitsF_ascii : ∀ (f n : Nat), ∀ c ∈ natDigitsF f n, c.toNat < 128
  | 0, n => by simp [natDigitsF]
  | Nat.succ f, n => by
    intro c hc
    simp only [natDigitsF] at hc
    split_ifs at hc with h
    · simp only [List.mem_singleton] at hc
      subst hc
      rw [char_toNat_ofNat_small (48 + n) (by omega)]
      omega
    · simp only [List.mem_append, List.mem_singleton] at hc
      rcases hc with h2 | rfl
      · exact natDigitsF_ascii f (n / 10) c h2
      · have hm : n % 10 < 10 := Nat.mod_lt n (by omega)
        rw [char_toNat_ofNat_small (48 + n % 10) (by omega)]
        omega

theorem printNum_ascii (n : Int) : ∀ c ∈ printNum n, c.toNat < 128 := by
  intro c hc
  unfold printNum natDigits at hc
  split_ifs at hc with h
  · simp only [List.mem_cons] at hc
    rcases hc with rfl | h2
    · decide
    · exact natDigitsF_ascii _ _ c h2
  · exact natDigitsF_ascii _ _ c hc

mutual

theorem printValue_ascii : ∀ j : Json, ∀ c ∈ printValue j, c.toNat < 128
  | .null => by
    intro c hc
    simp only [printValue, List.mem_cons, List.not_mem_nil, or_false] at hc
    rcases hc with rfl | rfl | rfl | rfl <;> decide
  | .bool true => by
    intro c hc
    simp only [printValue, List.mem_cons, List.not_mem_nil, or_false] at hc
    rcases hc with rfl | rfl | rfl | rfl <;> decide
  | .bool false => by
    intro c hc
    simp only [printValue, List.mem_cons, List.not_mem_nil, or_false] at hc
    rcases hc with rfl | rfl | rfl | rfl | rfl <;> decide
  | .num n => printNum_ascii n
  | .str s => printString_ascii s
  | .arr [] => by
    intro c hc
    simp only [printValue, List.mem_cons, List.not_mem_nil, or_false] at hc
    rcases hc with rfl | rfl <;> decide
  | .arr (x :: xs) => by
    intro c hc
    simp only [printValue, List.mem_cons, List.mem_append, List.mem_singleton,
      List.not_mem_nil, or_false] at hc
    rcases hc with rfl | (h | h) | rfl
    · decide
    · exact printValue_ascii x c h
    · exact printRest_ascii xs c h
    · decide
  | .obj [] => by
    intro c hc
    simp only [printValue, List.mem_cons, List.not_mem_nil, or_false] at hc
    rcases hc with rfl | rfl <;> decide
  | .obj ((k, v) :: es) => by
    intro c hc
    simp only [printValue, List.mem_cons, List.mem_append, List.mem_singleton,
      List.not_mem_nil, or_false] at hc
    rcases hc with rfl | ((h | rfl | rfl | h) | h) | rfl
    · decide
    · exact printString_ascii k c h
    · decide
    · decide
    · exact printValue_ascii v c h
    · exact printMRest_ascii es c h
    · decide
termination_by structural j => j

theorem printRest_ascii : ∀ l : List Json, ∀ c ∈ printRest l, c.toNat < 128
  | [] => by simp [printRest]
  | x :: xs => by
    intro c hc
    simp only [printRest, List.mem_cons, List.mem_append] at hc
    rcases hc with rfl | rfl | h | h
    · decide
    · decide
    · exact printValue_ascii x c h
    · exact printRest_ascii xs c h
termination_by structural l => l

theorem printMRest_ascii : ∀ l : List (String × Json), ∀ c ∈ printMRest l, c.toNat < 128
  | [] => by simp [printMRest]
  | (k, v) :: es => by
    intro c hc
    simp only [printMRest, List.mem_cons, List.mem_append, List.mem_singleton,
      List.not_mem_nil, or_false] at hc
    rcases hc with rfl | rfl | (h | rfl | rfl | h) | h
    · decide
    · decide
    · exact printString_ascii k c h
    · decide
    · decide
    · exact printValue_ascii v c h
    · exact printMRest_ascii es c h
termination_by structural l => l

end

theorem utf8Encode_ascii : ∀ s : List Char, (∀ c ∈ s, c.toNat < 128) →
    utf8Encode s = s.map Char.toNat
  | [] => by intro h; rfl
  | c :: t => by
    intro h
    have hc : c.toNat < 128 := h c (by simp)
    simp only [utf8Encode, utf8EncodeChar, List.map_cons]
    rw [if_pos (by omega : c.toNat < 0x80)]
    rw [utf8Encode_ascii t (fun d hd => h d (by simp [hd]))]
    rfl

theorem utf8DecodeF_ascii : ∀ (f : Nat) (s : List Char), s.length < f →
    (∀ c ∈ s, c.toNat < 128) → utf8DecodeF f (s.map Char.toNat) = some s := by
  intro f
  induction f with
  | zero => intro s h; omega
  | succ f ih =>
    intro s hlen h
    cases s with
    | nil => rfl
    | cons c t =>
      have hc : c.toNat < 128 := h c (by simp)
      simp only [List.map_cons, utf8DecodeF]
      rw [if_pos (by omega : c.toNat < 0x80)]
      rw [ih t (by simp only [List.length_cons] at hlen; omega)
        (fun d hd => h d (by simp [hd]))]
      simp [Char.ofNat_toNat]

theorem utf8Decode_ascii (s : List Char) (h : ∀ c ∈ s, c.toNat < 128) :
    utf8Decode (s.map Char.toNat) = some s := by
  unfold utf8Decode
  exact utf8DecodeF_ascii _ s (by simp) h

/-! ### Round-trip: number layer -/

theorem char_le_iff_toNat (a b : Char) : a ≤ b ↔ a.toNat ≤ b.toNat := by
  rw [Char.le_def]
  exact ⟨fun h => h, fun h => h⟩

theorem digitVal_ofNat (d : Nat) (hd : d < 10) :
    digitVal (Char.ofNat (48 + d)) = some d := by
  have ht : (Char.ofNat (48 + d)).toNat = 48 + d := char_toNat_ofNat_small _ (by omega)
  unfold digitVal
  rw [if_pos]
  · rw [ht]
    congr 1
    omega
  · constructor
    · rw [char_le_iff_toNat, ht]
      simp only [show ('0' : Char).toNat = 48 from rfl]
      omega
    · rw [char_le_iff_toNat, ht]
      simp only [show ('9' : Char).toNat = 57 from rfl]
      omega

theorem natDigitsF_mem_digit : ∀ (f n : Nat), n < f →
    ∀ c ∈ natDigitsF f n, ∃ d, d < 10 ∧ c = Char.ofNat (48 + d) := by
  intro f
  induction f with
  | zero => intro n h; omega
  | succ f ih =>
    intro n hn c hc
    simp only [natDigitsF] at hc
    split_ifs at hc with h
    · simp only [List.mem_singleton] at hc
      exact ⟨n, h, hc⟩
    · simp only [List.mem_append, List.mem_singleton] at hc
      rcases hc with h2 | rfl
      · exact ih (n / 10) (by omega) c h2
      · exact ⟨n % 10, by omega, rfl⟩

theorem digitsToNat_append (acc : Nat) : ∀ (ds : List Nat) (d : Nat),
    digitsToNat acc (ds ++ [d]) = 10 * digitsToNat acc ds + d := by
  intro ds
  induction ds generalizing acc with
  | nil => intro d; simp [digitsToNat]; omega
  | cons e es ih => intro d; simp [digitsToNat, ih]

theorem digitsToNat_natDigitsF : ∀ (f n : Nat), n < f →
    digitsToNat 0 ((natDigitsF f n).map (fun c => c.toNat - 48)) = n := by
  intro f
  induction f with
  | zero => intro n h; omega
  | succ f ih =>
    intro n hn
    simp only [natDigitsF]
    split_ifs with h
    · simp only [List.map_cons, List.map_nil]
      rw [char_toNat_ofNat_small _ (by omega)]
      simp [digitsToNat]
    · simp only [List.map_append, List.map_cons, List.map_nil]
      rw [digitsToNat_append, ih (n / 10) (by omega)]
      rw [char_toNat_ofNat_small _ (by omega : 48 + n % 10 < 0xD800)]
      omega

theorem natDigitsF_head : ∀ (f n : Nat), n < f → 0 < n →
    ∃ d t, natDigitsF f n = Char.ofNat (48 + d) :: t ∧ 1 ≤ d ∧ d ≤ 9 := by
  intro f
  induction f with
  | zero => intro n h; omega
  | succ f ih =>
    intro n hn hpos
    simp only [natDigitsF]
    split_ifs with h
    · exact ⟨n, [], rfl, by omega, by omega⟩
    · obtain ⟨d, t, hd, h1, h9⟩ := ih (n / 10) (by omega) (by omega)
      exact ⟨d, t ++ [Char.ofNat (48 + n % 10)], by rw [hd]; rfl, h1, h9⟩

theorem takeDigits_all_digits : ∀ (ds rest : List Char),
    (∀ c ∈ ds, ∃ d, d < 10 ∧ c = Char.ofNat (48 + d)) →
    (∀ c ∈ rest.head?, digitVal c = none) →
    takeDigits (ds ++ rest) = (ds.map (fun c => c.toNat - 48), rest) := by
  intro ds
  induction ds with
  | nil =>
    intro rest hds hrest
    cases rest with
    | nil => rfl
    | cons c t =>
      have hc : digitVal c = none := hrest c (by simp)
      simp [takeDigits, hc]
  | cons c t ih =>
    intro rest hds hrest
    obtain ⟨d, hd, rfl⟩ := hds c (by simp)
    have hv := digitVal_ofNat d hd
    have hih := ih rest (fun x hx => hds x (by simp [hx])) hrest
    simp only [List.cons_append, takeDigits, hv, hih, List.map_cons]
    rw [char_toNat_ofNat_small (48 + d) (by omega)]
    simp [show 48 + d - 48 = d from by omega, hih]

theorem parseIntBody_natDigits (f n : Nat) (hn : n < f) (rest : List Char)
    (hrest : ∀ c ∈ rest.head?, digitVal c = none) :
    parseIntBody (natDigitsF f n ++ rest) = some (n, rest) := by
  by_cases hz : n = 0
  · subst hz
    cases f with
    | zero => omega
    | succ f =>
      have h0 : natDigitsF (f + 1) 0 = [Char.ofNat 48] := by simp [natDigitsF]
      rw [h0]
      have : Char.ofNat 48 = '0' := rfl
      rw [this]
      simp [parseIntBody]
  · obtain ⟨d, t, hshape, hd1, hd9⟩ := natDigitsF_head f n hn (by omega)
    rw [hshape]
    have hmem : ∀ c ∈ t, ∃ e, e < 10 ∧ c = Char.ofNat (48 + e) := by
      intro c hc
      exact natDigitsF_mem_digit f n hn c (by rw [hshape]; simp [hc])
    have htoNat : (Char.ofNat (48 + d)).toNat = 48 + d :=
      char_toNat_ofNat_small _ (by omega)
    have hne0 : ¬(Char.ofNat (48 + d) = '0') := by
      intro he
      have := congrArg Char.toNat he
      rw [htoNat] at this
      simp only [show ('0' : Char).toNat = 48 from rfl] at this
      omega
    have hle : '1' ≤ Char.ofNat (48 + d) ∧ Char.ofNat (48 + d) ≤ '9' := by
      constructor
      · rw [char_le_iff_toNat, htoNat]
        simp only [show ('1' : Char).toNat = 49 from rfl]
        omega
      · rw [char_le_iff_toNat, htoNat]
        simp only [show ('9' : Char).toNat = 57 from rfl]
        omega
    simp only [List.cons_append, parseIntBody, hne0, if_false, hle, and_self, if_true]
    rw [takeDigits_all_digits t rest hmem hrest]
    have hval : digitsToNat 0 ((natDigitsF f n).map (fun c => c.toNat - 48)) = n :=
      digitsToNat_natDigitsF f n hn
    rw [hshape] at hval
    simp only [List.map_cons, htoNat] at hval
    have : digitsToNat 0 ((48 + d - 48) :: (t.map (fun c => c.toNat - 48))) =
        digitsToNat (48 + d - 48) (t.map (fun c => c.toNat - 48)) := by
      simp [digitsToNat]
    rw [this] at hval
    rw [show 48 + d - 48 = d from by omega] at hval
    rw [htoNat, show 48 + d - 48 = d from by omega, hval]

theorem parseNumberAt_printNum (n : Int) (rest : List Char)
    (hrest : ∀ c ∈ rest.head?, digitVal c = none ∧ c ≠ '.' ∧ c ≠ 'e' ∧ c ≠ 'E') :
    parseNumberAt (printNum n ++ rest) = some (Json.num n, rest) := by
  have hdig : ∀ c ∈ rest.head?, digitVal c = none := fun c hc => (hrest c hc).1
  have hfrac : checkNoFrac rest = some rest := by
    cases rest with
    | nil => rfl
    | cons c t =>
      obtain ⟨_, h1, h2, h3⟩ := hrest c (by simp)
      simp [checkNoFrac, h1, h2, h3]
  have hint : parseIntBody (natDigitsF (n.natAbs + 1) n.natAbs ++ rest) =
      some (n.natAbs, rest) :=
    parseIntBody_natDigits (n.natAbs + 1) n.natAbs (by omega) rest hdig
  unfold printNum natDigits
  split_ifs with hneg
  · have hmain : parseNumberAt ('-' :: (natDigitsF (n.natAbs + 1) n.natAbs ++ rest)) =
        (parseIntBody (natDigitsF (n.natAbs + 1) n.natAbs ++ rest)).bind
          (fun nr => (checkNoFrac nr.2).map (fun r => (Json.num (-(nr.1 : Int)), r))) := by
      simp [parseNumberAt]
    rw [List.cons_append, hmain, hint]
    simp [hfrac, show -(n.natAbs : Int) = n from by omega]
    rw [abs_of_neg hneg]
    ring
  · obtain ⟨d, t, hs, hd⟩ :
        ∃ d t, natDigitsF (n.natAbs + 1) n.natAbs = Char.ofNat (48 + d) :: t ∧ d < 10 := by
      by_cases hz : n.natAbs = 0
      · refine ⟨0, [], ?_, by omega⟩
        rw [hz]
        simp [natDigitsF]
      · obtain ⟨d, t, hsh, h1, h9⟩ :=
          natDigitsF_head (n.natAbs + 1) n.natAbs (by omega) (by omega)
        exact ⟨d, t, hsh, by omega⟩
    have hne : ¬(Char.ofNat (48 + d) = '-') := by
      intro he
      have h2 := congrArg Char.toNat he
      rw [char_toNat_ofNat_small _ (by omega)] at h2
      simp only [show ('-' : Char).toNat = 45 from rfl] at h2
      omega
    have hmain : parseNumberAt (Char.ofNat (48 + d) :: (t ++ rest)) =
        (parseIntBody (Char.ofNat (48 + d) :: (t ++ rest))).bind
          (fun nr => (checkNoFrac nr.2).map (fun r => (Json.num (nr.1 : Int), r))) := by
      simp [parseNumberAt, hne]
    rw [hs, List.cons_append, hmain]
    rw [show Char.ofNat (48 + d) :: (t ++ rest) = natDigitsF (n.natAbs + 1) n.natAbs ++ rest
      from by rw [hs]; rfl]
    rw [hint]
    simp [hfrac, show (n.natAbs : Int) = n from by omega]

/-! ### Round-trip: string layer -/

theorem hexVal_hexChar : ∀ d, d < 16 → hexVal (hexChar d) = some d := by decide

theorem hex4_toHex4 (n : Nat) (hn : n < 0x10000) :
    hex4 (hexChar (n / 4096)) (hexChar (n / 256 % 16)) (hexChar (n / 16 % 16))
      (hexChar (n % 16)) = some n := by
  unfold hex4
  rw [hexVal_hexChar (n / 4096) (by omega), hexVal_hexChar (n / 256 % 16) (by omega),
    hexVal_hexChar (n / 16 % 16) (by omega), hexVal_hexChar (n % 16) (by omega)]
  show some (n / 4096 * 4096 + n / 256 % 16 * 256 + n / 16 % 16 * 16 + n % 16) = some n
  congr 1
  omega

theorem char_not_surrogate (c : Char) : c.toNat < 0xD800 ∨ 0xDFFF < c.toNat := by
  rcases c.valid with h | h
  · exact Or.inl h
  · exact Or.inr h.1

theorem escapeChar_length_pos (c : Char) : 1 ≤ (escapeChar c).length := by
  unfold escapeChar
  split_ifs <;> simp

theorem escapeChars_length_ge : ∀ s : List Char, s.length ≤ (escapeChars s).length
  | [] => by simp [escapeChars]
  | c :: t => by
    have h1 := escapeChar_length_pos c
    have h2 := escapeChars_length_ge t
    simp only [escapeChars, List.length_append, List.length_cons]
    omega

theorem parseEscape_u_pair (h1 h2 h3 h4 g1 g2 g3 g4 : Char) (rest4 : List Char)
    (n m : Nat) (hn : hex4 h1 h2 h3 h4 = some n) (hm : hex4 g1 g2 g3 g4 = some m)
    (hns : 0xD800 ≤ n ∧ n ≤ 0xDBFF) (hms : 0xDC00 ≤ m ∧ m ≤ 0xDFFF) :
    parseEscape ('u' :: h1 :: h2 :: h3 :: h4 :: '\\' :: 'u' :: g1 :: g2 :: g3 :: g4 :: rest4) =
      some (Char.ofNat (0x10000 + (n - 0xD800) * 0x400 + (m - 0xDC00)), rest4) := by
  simp [parseEscape, hn, hm, hns, hms]

theorem parseStringBodyF_backslash (f : Nat) (rest : List Char) :
    parseStringBodyF (f + 1) ('\\' :: rest) =
      match parseEscape rest with
      | some cr => (parseStringBodyF f cr.2).map (fun sr => (cr.1 :: sr.1, sr.2))
      | none => none := by
  simp [parseStringBodyF]

theorem parseStringBodyF_escape : ∀ (f : Nat) (s rest : List Char), s.length < f →
    parseStringBodyF f (escapeChars s ++ '"' :: rest) = some (s, rest) := by
  intro f
  induction f with
  | zero => intro s rest h; omega
  | succ f ih =>
    intro s rest hlen
    cases s with
    | nil => rfl
    | cons c t =>
      have iht := ih t rest (by simp only [List.length_cons] at hlen; omega)
      simp only [escapeChars, List.append_assoc]
      unfold escapeChar
      split_ifs with h1 h2 h3 h4 h5 h6 h7 h8 h9
      · subst h1
        simp [parseStringBodyF, parseEscape, iht]
      · subst h2
        simp [parseStringBodyF, parseEscape, iht]
      · subst h3
        simp [parseStringBodyF, parseEscape, iht]
      · subst h4
        simp [parseStringBodyF, parseEscape, iht]
      · subst h5
        simp [parseStringBodyF, parseEscape, iht]
      · subst h6
        simp [parseStringBodyF, parseEscape, iht]
      · subst h7
        simp [parseStringBodyF, parseEscape, iht]
      · simp only [List.cons_append, List.nil_append, parseStringBodyF, h1, h2,
          show ¬(c.toNat < 0x20) from by omega, if_false, if_neg h1, if_neg h2, iht]
        simp [iht]
      · have hns := char_not_surrogate c
        have hs1 : ¬(0xD800 ≤ c.toNat ∧ c.toNat ≤ 0xDBFF) := by omega
        have hs2 : ¬(0xDC00 ≤ c.toNat ∧ c.toNat ≤ 0xDFFF) := by omega
        simp only [toHex4, List.cons_append, List.nil_append]
        simp [parseStringBodyF, parseEscape, hex4_toHex4 c.toNat h9, hs1, hs2,
          Char.ofNat_toNat, iht]
      · have hc : c.toNat < 0x110000 := char_toNat_lt c
        simp only [toHex4, List.cons_append, List.nil_append, List.append_assoc]
        rw [parseStringBodyF_backslash]
        rw [parseEscape_u_pair _ _ _ _ _ _ _ _ (escapeChars t ++ '"' :: rest)
          (0xD800 + (c.toNat - 0x10000) / 0x400) (0xDC00 + (c.toNat - 0x10000) % 0x400)
          (hex4_toHex4 _ (by omega)) (hex4_toHex4 _ (by omega)) (by omega) (by omega)]
        simp only [iht, Option.map_some]
        rw [show 0xD800 + (c.toNat - 0x10000) / 0x400 - 0xD800 =
          (c.toNat - 0x10000) / 0x400 from by omega]
        rw [show 0xDC00 + (c.toNat - 0x10000) % 0x400 - 0xDC00 =
          (c.toNat - 0x10000) % 0x400 from by omega]
        rw [show 0x10000 + (c.toNat - 0x10000) / 0x400 * 0x400 + (c.toNat - 0x10000) % 0x400
          = c.toNat from by omega, Char.ofNat_toNat]
        rfl

theorem parseStringBody_escape (s rest : List Char) :
    parseStringBody (escapeChars s ++ '"' :: rest) = some (s, rest) := by
  unfold parseStringBody
  apply parseStringBodyF_escape
  have h1 := escapeChars_length_ge s
  simp only [List.length_append, List.length_cons]
  omega

/-! ### Round-trip: parser layer -/

theorem skipWs_not_ws (c : Char) (cs : List Char) (h : isWsChar c = false) :
    skipWs (c :: cs) = c :: cs := by
  simp [skipWs, List.dropWhile_cons, h]

theorem skipWs_space (l : List Char) : skipWs (' ' :: l) = skipWs l := by
  simp [skipWs, List.dropWhile_cons, isWsChar]

theorem natDigitsF_shape : ∀ (f n : Nat), n < f →
    ∃ d t, natDigitsF f n = Char.ofNat (48 + d) :: t ∧ d < 10 := by
  intro f n hn
  by_cases hz : n = 0
  · subst hz
    cases f with
    | zero => omega
    | succ f => exact ⟨0, [], by simp [natDigitsF], by omega⟩
  · obtain ⟨d, t, hs, h1, h9⟩ := natDigitsF_head f n hn (by omega)
    exact ⟨d, t, hs, by omega⟩

theorem digit_head_facts : ∀ d, d < 10 →
    isWsChar (Char.ofNat (48 + d)) = false ∧ Char.ofNat (48 + d) ≠ ']' ∧
    Char.ofNat (48 + d) ≠ rbrace ∧ Char.ofNat (48 + d) ≠ '"' ∧
    Char.ofNat (48 + d) ≠ lbrace ∧ Char.ofNat (48 + d) ≠ '[' ∧
    Char.ofNat (48 + d) ≠ 't' ∧ Char.ofNat (48 + d) ≠ 'f' ∧
    Char.ofNat (48 + d) ≠ 'n' := by decide

theorem printNum_head (n : Int) : ∃ c t, printNum n = c :: t ∧
    isWsChar c = false ∧ c ≠ ']' ∧ c ≠ rbrace ∧
    (∀ f rest, parseValue (f + 1) (c :: t ++ rest) = parseNumberAt (c :: t ++ rest)) := by
  have hv : ∀ (c : Char), c ≠ '"' → c ≠ lbrace → c ≠ '[' → c ≠ 't' → c ≠ 'f' → c ≠ 'n' →
      ∀ f rest2, parseValue (f + 1) (c :: rest2) = parseNumberAt (c :: rest2) := by
    intro c h1 h2 h3 h4 h5 h6 f rest2
    simp [parseValue, h1, h2, h3, h4, h5, h6]
  unfold printNum natDigits
  split_ifs with hneg
  · exact ⟨'-', natDigitsF (n.natAbs + 1) n.natAbs, rfl, by decide, by decide, by decide,
      fun f rest => hv '-' (by decide) (by decide) (by decide) (by decide) (by decide)
        (by decide) f _⟩
  · obtain ⟨d, t, hs, hd⟩ := natDigitsF_shape (n.natAbs + 1) n.natAbs (by omega)
    obtain ⟨hw, he1, he2, he3, he4, he5, he6, he7, he8⟩ := digit_head_facts d hd
    exact ⟨Char.ofNat (48 + d), t, hs, hw, he1, he2,
      fun f rest => hv _ he3 he4 he5 he6 he7 he8 f _⟩

theorem printValue_head : ∀ j : Json, ∃ c t, printValue j = c :: t ∧
    isWsChar c = false ∧ c ≠ ']' ∧ c ≠ rbrace := by
  have hside : ∀ c : Char, c.toNat = 110 ∨ c.toNat = 116 ∨ c.toNat = 102 ∨
      c.toNat = 34 ∨ c.toNat = 91 ∨ c.toNat = 123 →
      isWsChar c = false ∧ c ≠ ']' ∧ c ≠ rbrace := by
    intro c hc
    have hws : isWsChar c = false := by
      simp only [isWsChar, Bool.or_eq_false_iff, decide_eq_false_iff_not]
      refine ⟨⟨⟨?_, ?_⟩, ?_⟩, ?_⟩ <;> intro he <;> subst he <;> simp_all
    have hb1 : c ≠ ']' := by intro he; subst he; simp_all
    have hb2 : c ≠ rbrace := by
      intro he
      subst he
      revert hc
      decide
    exact ⟨hws, hb1, hb2⟩
  intro j
  cases j with
  | num n =>
    obtain ⟨c, t, hs, hw, h1, h2, _⟩ := printNum_head n
    exact ⟨c, t, hs, hw, h1, h2⟩
  | null => exact ⟨'n', _, rfl, hside _ (by decide)⟩
  | bool b =>
    cases b
    case true => exact ⟨'t', _, rfl, hside _ (by decide)⟩
    case false => exact ⟨'f', _, rfl, hside _ (by decide)⟩
  | str s => exact ⟨'"', _, rfl, hside _ (by decide)⟩
  | arr xs =>
    cases xs
    case nil => exact ⟨'[', _, rfl, hside _ (by decide)⟩
    case cons x xs => exact ⟨'[', _, rfl, hside _ (by decide)⟩
  | obj es =>
    cases es
    case nil => exact ⟨lbrace, _, rfl, hside _ (by decide)⟩
    case cons kv es => exact ⟨lbrace, _, rfl, hside _ (by decide)⟩

theorem keyIn_iff_mem (k : String) : ∀ es : List (String × Json),
    keyIn k es = true ↔ k ∈ es.map Prod.fst
  | [] => by simp [keyIn]
  | (k2, v2) :: es => by
    simp only [keyIn, Bool.or_eq_true, decide_eq_true_eq, List.map_cons, List.mem_cons,
      keyIn_iff_mem k es]

theorem nodupKeysObj_keys : ∀ es : List (String × Json), nodupKeysObj es = true →
    (es.map Prod.fst).Nodup
  | [] => by simp
  | (k, v) :: es => by
    intro h
    simp only [nodupKeysObj, Bool.and_eq_true, Bool.not_eq_true'] at h
    obtain ⟨⟨hk, _⟩, hes⟩ := h
    simp only [List.map_cons, List.nodup_cons]
    refine ⟨?_, nodupKeysObj_keys es hes⟩
    intro hmem
    rw [← keyIn_iff_mem] at hmem
    rw [hmem] at hk
    cases hk

theorem insertKey_of_not_mem (k : String) (v : Json) :
    ∀ acc : List (String × Json), k ∉ acc.map Prod.fst →
      insertKey acc k v = acc ++ [(k, v)]
  | [], _ => rfl
  | (k2, v2) :: acc, h => by
    simp only [List.map_cons, List.mem_cons] at h
    push_neg at h
    have hne : ¬(k2 = k) := by
      intro he
      exact h.1 he.symm
    simp [insertKey, hne, insertKey_of_not_mem k v acc h.2]

theorem head_delim (c0 : Char) (tl : List Char) (h1 : digitVal c0 = none)
    (h2 : c0 ≠ '.') (h3 : c0 ≠ 'e') (h4 : c0 ≠ 'E') :
    ∀ c ∈ (c0 :: tl).head?, digitVal c = none ∧ c ≠ '.' ∧ c ≠ 'e' ∧ c ≠ 'E' := by
  intro c hc
  rw [List.head?_cons, Option.mem_def] at hc
  injection hc with hc
  subst hc
  exact ⟨h1, h2, h3, h4⟩

theorem sizeJ_pos : ∀ j : Json, 1 ≤ sizeJ j
  | .null => by simp [sizeJ]
  | .bool b => by simp [sizeJ]
  | .num n => by simp [sizeJ]
  | .str s => by simp [sizeJ]
  | .arr xs => by simp [sizeJ]
  | .obj es => by simp [sizeJ]

theorem parse_print : ∀ f : Nat,
    (∀ (j : Json) (rest : List Char), sizeJ j ≤ f → nodupKeysJson j = true →
      (∀ c ∈ rest.head?, digitVal c = none ∧ c ≠ '.' ∧ c ≠ 'e' ∧ c ≠ 'E') →
      parseValue f (printValue j ++ rest) = some (j, rest)) ∧
    (∀ (x : Json) (xs : List Json) (acc : List Json) (rest : List Char),
      sizeE (x :: xs) ≤ f → nodupKeysArr (x :: xs) = true →
      parseElems f (printValue x ++ (printRest xs ++ ']' :: rest)) acc =
        some (Json.arr (acc ++ x :: xs), rest)) ∧
    (∀ (k : String) (v : Json) (ms : List (String × Json)) (acc : List (String × Json))
      (rest : List Char), sizeM ((k, v) :: ms) ≤ f → nodupKeysObj ((k, v) :: ms) = true →
      ((acc ++ (k, v) :: ms).map Prod.fst).Nodup →
      parseMembers f ('"' :: (escapeChars k.data ++
          '"' :: ':' :: ' ' :: (printValue v ++ (printMRest ms ++ rbrace :: rest)))) acc =
        some (Json.obj (acc ++ (k, v) :: ms), rest)) := by
  intro f
  induction f with
  | zero =>
    refine ⟨?_, ?_, ?_⟩
    · intro j rest hsz
      have := sizeJ_pos j
      omega
    · intro x xs acc rest hsz
      have := sizeJ_pos x
      simp only [sizeE] at hsz
      omega
    · intro k v ms acc rest hsz
      have := sizeJ_pos v
      simp only [sizeM] at hsz
      omega
  | succ f ih =>
    obtain ⟨ihV, ihE, ihM⟩ := ih
    refine ⟨?_, ?_, ?_⟩
    · -- parseValue on printed value
      intro j rest hsz hnd hdelim
      cases j with
      | null =>
        simp [printValue, parseValue, show (('n' : Char) = lbrace) = False from by decide]
      | bool b =>
        cases b with
        | true =>
          simp [printValue, parseValue, show (('t' : Char) = lbrace) = False from by decide]
        | false =>
          simp [printValue, parseValue, show (('f' : Char) = lbrace) = False from by decide]
      | num n =>
        obtain ⟨c, t, hs, hw, hb1, hb2, hdisp⟩ := printNum_head n
        have hnum := parseNumberAt_printNum n rest hdelim
        simp only [printValue]
        rw [hs, hdisp f rest, ← hs, hnum]
      | str s =>
        simp only [printValue, printString, List.cons_append, List.append_assoc,
          List.nil_append]
        simp [parseValue, parseStringBody_escape]
      | arr xs =>
        cases xs with
        | nil =>
          simp [printValue, parseValue, skipWs_not_ws ']' rest (by decide),
            show (('[' : Char) = lbrace) = False from by decide]
        | cons x xs =>
          obtain ⟨c0, t0, hx, hw0, hbr0, _⟩ := printValue_head x
          have hszE : sizeE (x :: xs) ≤ f := by
            simp only [sizeJ] at hsz
            omega
          have hndE : nodupKeysArr (x :: xs) = true := by
            simpa [nodupKeysJson] using hnd
          have hE := ihE x xs [] rest hszE hndE
          simp only [printValue, List.cons_append, List.append_assoc, List.nil_append]
          have hunf : parseValue (f + 1)
              ('[' :: (printValue x ++ (printRest xs ++ ']' :: rest))) =
              match skipWs (printValue x ++ (printRest xs ++ ']' :: rest)) with
              | c2 :: rest2 =>
                if c2 = ']' then some (Json.arr [], rest2)
                else parseElems f (c2 :: rest2) []
              | [] => none := by
            simp [parseValue, show (('[' : Char) = lbrace) = False from by decide]
          rw [hunf]
          rw [hx, List.cons_append, skipWs_not_ws c0 _ hw0]
          dsimp only
          rw [if_neg hbr0, ← List.cons_append, ← hx]
          simpa using hE
      | obj es =>
        cases es with
        | nil =>
          simp [printValue, parseValue, skipWs_not_ws rbrace rest (by decide),
            show ((lbrace : Char) = '"') = False from by decide]
        | cons kv es =>
          obtain ⟨k, v⟩ := kv
          have hszM : sizeM ((k, v) :: es) ≤ f := by
            simp only [sizeJ] at hsz
            omega
          have hndM : nodupKeysObj ((k, v) :: es) = true := by
            simpa [nodupKeysJson] using hnd
          have hkeys : (((k, v) :: es).map Prod.fst).Nodup := nodupKeysObj_keys _ hndM
          have hM := ihM k v es [] rest hszM hndM (by simpa using hkeys)
          simp only [printValue, printString, List.cons_append, List.append_assoc,
            List.nil_append]
          have hunf : parseValue (f + 1)
              (lbrace :: ('"' :: (escapeChars k.data ++
                ('"' :: ':' :: ' ' :: (printValue v ++ (printMRest es ++ rbrace :: rest)))))) =
              parseMembers f ('"' :: (escapeChars k.data ++
                ('"' :: ':' :: ' ' :: (printValue v ++ (printMRest es ++ rbrace :: rest))))) [] := by
            simp [parseValue, skipWs_not_ws '"' _ (by decide),
              show ((lbrace : Char) = '"') = False from by decide,
              show (('"' : Char) = rbrace) = False from by decide]
          rw [hunf]
          simpa using hM
    · -- parseElems on printed elements
      intro x xs acc rest hsz hnd
      have hndx : nodupKeysJson x = true := by
        simp only [nodupKeysArr, Bool.and_eq_true] at hnd
        exact hnd.1
      have hszx : sizeJ x ≤ f := by
        simp only [sizeE] at hsz
        omega
      cases xs with
      | nil =>
        have hV := ihV x (']' :: rest) hszx hndx
          (head_delim ']' rest (by decide) (by decide) (by decide) (by decide))
        simp only [printRest, List.nil_append]
        simp only [parseElems]
        rw [hV, Option.some_bind]
        dsimp only
        rw [skipWs_not_ws ']' rest (by decide)]
        dsimp only
        rw [if_neg (by decide : ¬ ((']' : Char) = ',')), if_pos rfl]
      | cons y ys =>
        have hndtail : nodupKeysArr (y :: ys) = true := by
          simp only [nodupKeysArr, Bool.and_eq_true] at hnd ⊢
          exact hnd.2
        have hsztail : sizeE (y :: ys) ≤ f := by
          simp only [sizeE] at hsz ⊢
          omega
        have hV := ihV x (',' :: ' ' :: (printValue y ++ (printRest ys ++ ']' :: rest)))
          hszx hndx
          (head_delim ',' _ (by decide) (by decide) (by decide) (by decide))
        have hE := ihE y ys (acc ++ [x]) rest hsztail hndtail
        obtain ⟨c0, t0, hy, hw0, _, _⟩ := printValue_head y
        simp only [printRest, List.cons_append, List.append_assoc]
        simp only [parseElems]
        rw [hV, Option.some_bind]
        dsimp only
        rw [skipWs_not_ws ',' _ (by decide)]
        dsimp only
        rw [if_pos rfl, skipWs_space]
        rw [hy, List.cons_append, skipWs_not_ws c0 _ hw0, ← List.cons_append, ← hy]
        simpa using hE
    · -- parseMembers on printed members
      intro k v ms acc rest hsz hnd hkeys
      have hndv : nodupKeysJson v = true := by
        simp only [nodupKeysObj, Bool.and_eq_true] at hnd
        exact hnd.1.2
      have hszv : sizeJ v ≤ f := by
        simp only [sizeM] at hsz
        omega
      have hknotin : k ∉ acc.map Prod.fst := by
        intro hmem
        have hcon : ¬ ((acc ++ (k, v) :: ms).map Prod.fst).Nodup := by
          simp only [List.map_append, List.map_cons]
          intro hcon
          have h2 := (List.nodup_append.mp hcon).2.2
          exact h2 hmem (by simp)
        exact hcon hkeys
      have hinsert : insertKey acc k v = acc ++ [(k, v)] := insertKey_of_not_mem k v acc hknotin
      obtain ⟨cv, tv, hv0, hwv, _, _⟩ := printValue_head v
      simp only [parseMembers, if_true]
      rw [parseStringBody_escape k.data]
      rw [Option.some_bind]
      dsimp only
      rw [skipWs_not_ws ':' _ (by decide)]
      dsimp only
      rw [if_pos rfl, skipWs_space]
      rw [hv0, List.cons_append, skipWs_not_ws cv _ hwv, ← List.cons_append, ← hv0]
      cases ms with
      | nil =>
        have hV := ihV v (rbrace :: rest) hszv hndv
          (head_delim rbrace rest (by decide) (by decide) (by decide) (by decide))
        simp only [printMRest, List.nil_append]
        rw [hV, Option.some_bind]
        dsimp only
        rw [skipWs_not_ws rbrace rest (by decide)]
        dsimp only
        rw [if_neg (by decide : ¬ ((rbrace : Char) = ',')), if_pos rfl]
        rw [show String.mk k.data = k from rfl, hinsert]
      | cons kv2 ms2 =>
        obtain ⟨k2, v2⟩ := kv2
        have hndtail : nodupKeysObj ((k2, v2) :: ms2) = true := by
          simp only [nodupKeysObj, Bool.and_eq_true] at hnd ⊢
          exact hnd.2
        have hsztail : sizeM ((k2, v2) :: ms2) ≤ f := by
          simp only [sizeM] at hsz ⊢
          omega
        have hkeystail : (((acc ++ [(k, v)]) ++ (k2, v2) :: ms2).map Prod.fst).Nodup := by
          simpa using hkeys
        have hM := ihM k2 v2 ms2 (acc ++ [(k, v)]) rest hsztail hndtail hkeystail
        have hV := ihV v (',' :: ' ' :: ('"' :: (escapeChars k2.data ++
            ('"' :: ':' :: ' ' :: (printValue v2 ++ (printMRest ms2 ++ rbrace :: rest))))))
          hszv hndv (head_delim ',' _ (by decide) (by decide) (by decide) (by decide))
        simp only [printMRest, printString, List.cons_append, List.append_assoc,
          List.nil_append, List.singleton_append]
        rw [hV, Option.some_bind]
        dsimp only
        rw [skipWs_not_ws ',' _ (by decide)]
        dsimp only
        rw [if_pos rfl]
        rw [skipWs_space, skipWs_not_ws '"' _ (by decide)]
        rw [show String.mk k.data = k from rfl, hinsert]
        simpa using hM

mutual

theorem sizeJ_le_print : ∀ j : Json, sizeJ j ≤ (printValue j).length
  | .null => by simp [sizeJ, printValue]
  | .bool true => by simp [sizeJ, printValue]
  | .bool false => by simp [sizeJ, printValue]
  | .num n => by
    obtain ⟨c, t, hs, _⟩ := printNum_head n
    simp [sizeJ, printValue, hs]
  | .str s => by simp [sizeJ, printValue, printString]
  | .arr [] => by simp [sizeJ, sizeE, printValue]
  | .arr (x :: xs) => by
    have h1 := sizeJ_le_print x
    have h2 := sizeE_le_print xs
    simp only [sizeJ, sizeE, printValue, List.length_cons, List.length_append]
    omega
  | .obj [] => by simp [sizeJ, sizeM, printValue]
  | .obj ((k, v) :: es) => by
    have h1 := sizeJ_le_print v
    have h2 := sizeM_le_print es
    simp only [sizeJ, sizeM, printValue, printString, List.length_cons, List.length_append]
    omega
termination_by structural j => j

theorem sizeE_le_print : ∀ xs : List Json, sizeE xs ≤ (printRest xs).length
  | [] => by simp [sizeE, printRest]
  | x :: xs => by
    have h1 := sizeJ_le_print x
    have h2 := sizeE_le_print xs
    simp only [sizeE, printRest, List.length_cons, List.length_append]
    omega
termination_by structural l => l

theorem sizeM_le_print : ∀ es : List (String × Json), sizeM es ≤ (printMRest es).length
  | [] => by simp [sizeM, printMRest]
  | (k, v) :: es => by
    have h1 := sizeJ_le_print v
    have h2 := sizeM_le_print es
    simp only [sizeM, printMRest, printString, List.length_cons, List.length_append]
    omega
termination_by structural l => l

end

theorem loads_print (j : Json) (hnd : nodupKeysJson j = true) :
    loads (printValue j) = some j := by
  obtain ⟨c, t, hs, hw, _, _⟩ := printValue_head j
  have hsz : sizeJ j ≤ (printValue j).length + 1 :=
    le_trans (sizeJ_le_print j) (Nat.le_succ _)
  have hV := (parse_print ((printValue j).length + 1)).1 j [] hsz hnd
    (by intro c hc; simp at hc)
  rw [List.append_nil] at hV
  unfold loads
  rw [hs, skipWs_not_ws c t hw, ← hs, hV, Option.some_bind]
  simp [skipWs]

theorem string_data_append (a b : String) : (a ++ b).data = a.data ++ b.data := rfl

theorem splitOnDot_no_dot : ∀ l : List Char, '.' ∉ l → splitOnDot l = [l]
  | [] => by intro h; rfl
  | c :: rest => by
    intro h
    simp only [List.mem_cons, not_or] at h
    have hc : ¬ (c = '.') := fun he => h.1 he.symm
    rw [show splitOnDot (c :: rest) = if c = '.' then [] :: splitOnDot rest else
        match splitOnDot rest with | [] => [[c]] | g :: gs => (c :: g) :: gs from rfl]
    rw [if_neg hc, splitOnDot_no_dot rest h.2]

theorem splitOnDot_append : ∀ (a rest : List Char), '.' ∉ a →
    splitOnDot (a ++ '.' :: rest) = a :: splitOnDot rest
  | [], rest, _ => by simp [splitOnDot]
  | c :: t, rest, ha => by
    simp only [List.mem_cons, not_or] at ha
    have hc : ¬ (c = '.') := fun he => ha.1 he.symm
    rw [List.cons_append]
    rw [show splitOnDot (c :: (t ++ '.' :: rest)) =
        if c = '.' then [] :: splitOnDot (t ++ '.' :: rest) else
        match splitOnDot (t ++ '.' :: rest) with
        | [] => [[c]] | g :: gs => (c :: g) :: gs from rfl]
    rw [if_neg hc, splitOnDot_append t rest ha.2]

theorem printValue_bytes_lt (j : Json) :
    ∀ b ∈ (printValue j).map Char.toNat, b < 256 := by
  intro b hbm
  simp only [List.mem_map] at hbm
  obtain ⟨c, hc, rfl⟩ := hbm
  have := printValue_ascii j c hc
  omega

theorem encodeMiddle_no_dot (j : Json) : '.' ∉ encodeMiddle j := by
  intro hmem
  have hascii := printValue_ascii j
  rw [encodeMiddle, show (dumps j).data = printValue j from rfl,
    utf8Encode_ascii _ hascii] at hmem
  obtain ⟨n, hn, he⟩ := b64urlEncodeNoPad_mem _ (printValue_bytes_lt j) '.' hmem
  exact b64urlChar_ne_dot n hn he.symm

theorem decodeSegment_encodeMiddle (j : Json) (hnd : nodupKeysJson j = true) :
    decodeSegment (pad_payload (encodeMiddle j)) = some j := by
  have hascii := printValue_ascii j
  have h1 : urlsafe_b64decode (pad_payload (encodeMiddle j)) =
      some ((printValue j).map Char.toNat) := by
    rw [encodeMiddle, show (dumps j).data = printValue j from rfl,
      utf8Encode_ascii _ hascii]
    exact b64url_roundtrip _ (printValue_bytes_lt j)
  unfold decodeSegment
  rw [h1]
  dsimp only
  rw [utf8Decode_ascii _ hascii]
  dsimp only
  exact loads_print j hnd

theorem decode_mkSyntheticToken (hdr sig : String) (j : Json)
    (hh : '.' ∉ hdr.data) (hs : '.' ∉ sig.data) (hnd : nodupKeysJson j = true) :
    decode_jwt_payload (mkSyntheticToken hdr j sig) = some j := by
  have hmid : '.' ∉ encodeMiddle j := encodeMiddle_no_dot j
  have hdata : (mkSyntheticToken hdr j sig).data =
      hdr.data ++ '.' :: (encodeMiddle j ++ '.' :: sig.data) := by
    simp [mkSyntheticToken, string_data_append]
  unfold decode_jwt_payload
  rw [hdata, splitOnDot_append _ _ hh, splitOnDot_append _ _ hmid,
    splitOnDot_no_dot _ hs]
  dsimp only
  exact decodeSegment_encodeMiddle j hnd

/-- C8: For every JSON object (over the embedded model: integer numbers,
necessarily-distinct member keys at every nesting level, dot-free header and
signature segments), serializing it with `json.dumps` defaults, UTF-8-encoding
and base64url-encoding the serialization without padding, embedding the result
as the middle segment of a synthetic three-part dot-delimited token, and
applying `decode_jwt_payload` to that token recovers the original JSON object
exactly. -/
theorem c8_roundtrip (hdr sig : String) (entries : List (String × Json))
    (hh : '.' ∉ hdr.data) (hs : '.' ∉ sig.data)
    (hnd : nodupKeysObj entries = true) :
    decode_jwt_payload (mkSyntheticToken hdr (Json.obj entries) sig) =
      some (Json.obj entries) :=
  decode_mkSyntheticToken hdr sig (Json.obj entries) hh hs
    (by simpa [nodupKeysJson] using hnd)

theorem c8_roundtrip_witness :
    '.' ∉ ("hdr" : String).data ∧ '.' ∉ ("sig" : String).data ∧
    nodupKeysObj [("cognito:groups", Json.arr [Json.str "Admin", Json.str "X"]),
      ("sub", Json.num 7)] = true ∧
    decode_jwt_payload (mkSyntheticToken "hdr"
      (Json.obj [("cognito:groups", Json.arr [Json.str "Admin", Json.str "X"]),
        ("sub", Json.num 7)]) "sig") =
      some (Json.obj [("cognito:groups", Json.arr [Json.str "Admin", Json.str "X"]),
        ("sub", Json.num 7)]) :=
  ⟨by decide, by decide, by rfl,
    c8_roundtrip "hdr" "sig"
      [("cognito:groups", Json.arr [Json.str "Admin", Json.str "X"]),
        ("sub", Json.num 7)] (by decide) (by decide) (by rfl)⟩
